import Mathlib

/-!
A shallow embedding of metaheuristic.h.

The header `src/metaheuristic.h` is embedded function by function.

* `double` scores are an arbitrary linearly ordered type `R` (a linearly ordered
  field where the code divides); NaN and infinities are outside the model.
* `std::vector`, `std::deque` and `std::valarray` are lists; an iterator is a
  position (a `Nat`) in its container, `begin()` being `0` and `end()` the length.
  Only the caller's `std::vector<FP>` encoding of the numeric shim is an `Array`,
  which keeps it apart from the valarray it is converted to and from.
* The caller's function pointers (`neighbors`, `evaluate`, `trait`, `cooling`) are
  pure functions; the `void *inf` context is a value of a type parameter `Inf`.
* The function-local static random engines are explicit inputs: the stream of
  future `uniform(eng)` results for `select_SA`, a finite list of future index
  draws for `DE_mutation`.
* Operations whose behaviour the language leaves undefined (reading the front of
  an empty container, popping an empty deque, `std::equal` running past the end,
  valarray arithmetic on different sizes) and thrown exceptions yield `none` in
  the trajectory part and `Fault.undefined` in the evolutionary part; a rejection
  loop that outlives the given draws yields `Fault.starved`.
* Signed counters are integers without wrap-around: `epoch_count` stays within
  `0 .. epoch_length` whenever `epoch_length ≥ 1`.

The definitions come first, the theorems after them.
-/

namespace MH

/-- Struct `Solution<Encoding>` (lines 18-31): an encoding and its evaluation result. -/
structure Solution (Encoding : Type) (R : Type) where
  encoding : Encoding
  score : R
deriving DecidableEq, Repr

/-- The friend `operator<` of `Solution` (lines 20-22): compares the scores only. -/
def Solution.lt {Encoding R : Type} [LinearOrder R] (a b : Solution Encoding R) : Bool :=
  decide (a.score < b.score)

/-- The function `std::min(a, b)` of the standard library at two iterators into the same
container, iterators being positions: it yields `b` when `b < a` and `a` otherwise. -/
def std_min (a b : Nat) : Nat :=
  if b < a then b else a

/-- Dereferencing the iterator at position `it` of a vector; `none` when `it` is `end()`. -/
def deref {α : Type} (v : List α) (it : Nat) : Option α :=
  v.get? it

namespace Trajectory

/-- Struct `Trajectory::Instance<Encoding>` (lines 37-48). -/
structure Instance (Encoding Inf R : Type) where
  generation_limit : Nat
  neighbors : Encoding → List Encoding
  inf : Inf
  evaluate : Encoding → Inf → R

/-- The tag classes `II_BestImproving`, `II_FirstImproving`, `II_Stochastic` (lines 57-59). -/
inductive IIStrategy where
  | II_BestImproving
  | II_FirstImproving
  | II_Stochastic
deriving DecidableEq, Repr

/-- Struct `II<Strategy>` (lines 51-54). -/
structure II where
  strategy : IIStrategy
deriving DecidableEq, Repr

/-- Struct `SA` (lines 61-67). -/
structure SA (R : Type) where
  init_temperature : R
  epoch_length : Int
  cooling : R → R
  temperature : R
  epoch_count : Int

/-- Struct `TS<Encoding, TraitType>` (lines 69-75); `length` is an `int8_t`. -/
structure TS (Encoding Inf Trait : Type) where
  length : Int
  trait : Encoding → Inf → Trait
  queue : List Trait

/-- The stream of values that successive calls of `uniform(eng)` return. -/
abbrev Rng (R : Type) := Nat → R

/-- The stream left after one call of `uniform(eng)`. -/
def Rng.next {R : Type} (rng : Rng R) : Rng R :=
  fun k => rng (k + 1)

/-- Best improving `select_II` (lines 375-383). `std::min` is applied to the two iterators
`neighbors.begin()` and `neighbors.end()`, and the iterator it yields is dereferenced. -/
def select_II_BestImproving {Encoding R : Type} [LinearOrder R]
    (current : Solution Encoding R) (neighbors : List (Solution Encoding R)) :
    Option (Solution Encoding R) :=
  match deref neighbors (std_min 0 neighbors.length) with
  | none => none
  | some min => some (if min.lt current then min else current)

/-- First improving `select_II` (lines 386-398). -/
def select_II_FirstImproving {Encoding R : Type} [LinearOrder R]
    (current : Solution Encoding R) : List (Solution Encoding R) → Solution Encoding R
  | [] => current
  | neighbor :: rest =>
    if neighbor.lt current then neighbor else select_II_FirstImproving current rest

/-- Stochastic `select_II` (lines 401-408). -/
def select_II_Stochastic {Encoding R : Type}
    (current : Solution Encoding R) (_neighbors : List (Solution Encoding R)) :
    Solution Encoding R :=
  current

/-- The three overloads of `select_II`, chosen by the strategy tag. -/
def select_II {Encoding R : Type} [LinearOrder R]
    (current : Solution Encoding R) (neighbors : List (Solution Encoding R)) :
    IIStrategy → Option (Solution Encoding R)
  | .II_BestImproving => select_II_BestImproving current neighbors
  | .II_FirstImproving => some (select_II_FirstImproving current neighbors)
  | .II_Stochastic => some (select_II_Stochastic current neighbors)

/-- Function `select_SA` (lines 411-426). `exp` is the exponential of `<cmath>`; the draw
`uniform(eng)` is made only when `neighbor < current` is false. -/
def select_SA {Encoding R : Type} [LinearOrderedField R] (exp : R → R) (temperature : R)
    (current : Solution Encoding R) :
    List (Solution Encoding R) → Rng R → Solution Encoding R × Rng R
  | [], rng => (current, rng)
  | neighbor :: rest, rng =>
    if neighbor.lt current then (neighbor, rng)
    else if exp (current.score - neighbor.score) / temperature > rng 0 then
      (neighbor, rng.next)
    else select_SA exp temperature current rest rng.next

/-- The loop of the tabu `select` (lines 360-368): `min` refers to the first neighbor and is
overwritten by every later neighbor whose trait is absent from the queue and that is
less than `min`. -/
def TS_scan {Encoding Inf Trait R : Type} [LinearOrder R] [DecidableEq Trait]
    (inf : Inf) (ts : TS Encoding Inf Trait) (neighbors : List (Solution Encoding R))
    (front : Solution Encoding R) : Solution Encoding R :=
  neighbors.foldl
    (fun min neighbor =>
      if !(ts.queue.contains (ts.trait neighbor.encoding inf)) && neighbor.lt min
      then neighbor else min)
    front

/-- The `select` overload for `TS` (lines 354-372). `neighbors.front()` needs a non-empty
vector and `queue.pop_front()` a non-empty deque. -/
def select_with_TS {Encoding Inf Trait R : Type} [LinearOrder R] [DecidableEq Trait]
    (inst : Instance Encoding Inf R) (_current : Solution Encoding R)
    (neighbors : List (Solution Encoding R)) (ts : TS Encoding Inf Trait) :
    Option (Solution Encoding R × TS Encoding Inf Trait) :=
  match neighbors.head? with
  | none => none
  | some front =>
    let min := TS_scan inst.inf ts neighbors front
    match ts.queue with
    | [] => none
    | _ :: popped =>
      some (min, { ts with queue := popped ++ [ts.trait min.encoding inst.inf] })

/-- The `select` overload for `II` (lines 327-334). -/
def select_with_II {Encoding Inf R : Type} [LinearOrder R]
    (_inst : Instance Encoding Inf R) (current : Solution Encoding R)
    (neighbors : List (Solution Encoding R)) (ii : II) :
    Option (Solution Encoding R × II) :=
  (select_II current neighbors ii.strategy).map (fun result => (result, ii))

/-- The cooling schedule of the `select` overload for `SA` (lines 344-348). -/
def SA_tick {R : Type} (sa : SA R) : SA R :=
  let epoch_count := sa.epoch_count + 1
  if epoch_count = sa.epoch_length then
    { sa with temperature := sa.cooling sa.temperature, epoch_count := 0 }
  else
    { sa with epoch_count := epoch_count }

/-- The `select` overload for `SA` (lines 337-350); the state is the `SA` struct together
with the random stream. -/
def select_with_SA {Encoding Inf R : Type} [LinearOrderedField R] (exp : R → R)
    (_inst : Instance Encoding Inf R) (current : Solution Encoding R)
    (neighbors : List (Solution Encoding R)) (state : SA R × Rng R) :
    Option (Solution Encoding R × (SA R × Rng R)) :=
  let picked := select_SA exp state.1.temperature current neighbors state.2
  some (picked.1, (SA_tick state.1, picked.2))

/-- The `initialize` overload for `II` (lines 287-293): only prints. -/
def initialize_II {Encoding Inf R : Type}
    (_inst : Instance Encoding Inf R) (ii : II) (_init : Encoding) : Option II :=
  some ii

/-- The `initialize` overload for `SA` (lines 296-304). -/
def initialize_SA {Encoding Inf R : Type}
    (_inst : Instance Encoding Inf R) (state : SA R × Rng R) (_init : Encoding) :
    Option (SA R × Rng R) :=
  some ({ state.1 with temperature := state.1.init_temperature, epoch_count := 0 }, state.2)

/-- Method `std::deque::resize(n)`: keeps the first `n` elements and pads with
value-initialised ones. -/
def deque_resize {α : Type} [Inhabited α] (q : List α) (n : Nat) : List α :=
  q.take n ++ List.replicate (n - q.length) default

/-- Function `std::fill` over a whole container. -/
def std_fill {α : Type} (q : List α) (value : α) : List α :=
  q.map (fun _ => value)

/-- The `initialize` overload for `TS` (lines 307-315). A negative `length` converts to a
size beyond `max_size()`, and `resize` throws. -/
def initialize_TS {Encoding Inf Trait R : Type} [Inhabited Trait]
    (inst : Instance Encoding Inf R) (ts : TS Encoding Inf Trait) (init : Encoding) :
    Option (TS Encoding Inf Trait) :=
  if 0 ≤ ts.length then
    some { ts with
      queue := std_fill (deque_resize ts.queue ts.length.toNat) (ts.trait init inst.inf) }
  else none

/-- The overload set that the template `search<Encoding, AlgoType>` resolves for its
`AlgoType`: one `initialize` and one `select`. -/
structure Strategy (Encoding Inf R AlgoType : Type) where
  init_algorithm : Instance Encoding Inf R → AlgoType → Encoding → Option AlgoType
  select : Instance Encoding Inf R → Solution Encoding R → List (Solution Encoding R) →
    AlgoType → Option (Solution Encoding R × AlgoType)

/-- Overloads for `AlgoType = II<Strategy>`. -/
def II_strategy {Encoding Inf R : Type} [LinearOrder R] : Strategy Encoding Inf R II where
  init_algorithm := initialize_II
  select := select_with_II

/-- Overloads for `AlgoType = SA`. -/
def SA_strategy {Encoding Inf R : Type} [LinearOrderedField R] (exp : R → R) :
    Strategy Encoding Inf R (SA R × Rng R) where
  init_algorithm := initialize_SA
  select := select_with_SA exp

/-- Overloads for `AlgoType = TS<Encoding, TraitType>`. -/
def TS_strategy {Encoding Inf Trait R : Type} [LinearOrder R] [DecidableEq Trait]
    [Inhabited Trait] : Strategy Encoding Inf R (TS Encoding Inf Trait) where
  init_algorithm := initialize_TS
  select := select_with_TS

/-- The variables of `search` that live across generations. -/
structure LoopState (Encoding R AlgoType : Type) where
  current : Solution Encoding R
  min : Solution Encoding R
  algorithm : AlgoType

/-- Lines 257-259 of `search`: initialise the algorithm, evaluate `init`. -/
def search_start {Encoding Inf R AlgoType : Type}
    (strat : Strategy Encoding Inf R AlgoType) (inst : Instance Encoding Inf R)
    (algorithm : AlgoType) (init : Encoding) : Option (LoopState Encoding R AlgoType) :=
  match strat.init_algorithm inst algorithm init with
  | none => none
  | some algorithm =>
    let current := Solution.mk init (inst.evaluate init inst.inf)
    some { current := current, min := current, algorithm := algorithm }

/-- One pass through the body of the loop of `search` (lines 265-280). -/
def search_step {Encoding Inf R AlgoType : Type} [LinearOrder R]
    (strat : Strategy Encoding Inf R AlgoType) (inst : Instance Encoding Inf R)
    (st : LoopState Encoding R AlgoType) : Option (LoopState Encoding R AlgoType) :=
  let neighbors_encoding := inst.neighbors st.current.encoding
  let neighbors := neighbors_encoding.map (fun e => Solution.mk e (inst.evaluate e inst.inf))
  match strat.select inst st.current neighbors st.algorithm with
  | none => none
  | some (current, algorithm) =>
    some { current := current,
           min := if current.lt st.min then current else st.min,
           algorithm := algorithm }

/-- The variables of `search` after `generation_count` passes of its loop. -/
def search_run {Encoding Inf R AlgoType : Type} [LinearOrder R]
    (strat : Strategy Encoding Inf R AlgoType) (inst : Instance Encoding Inf R)
    (algorithm : AlgoType) (init : Encoding) : Nat → Option (LoopState Encoding R AlgoType)
  | 0 => search_start strat inst algorithm init
  | generation_count + 1 =>
    (search_run strat inst algorithm init generation_count).bind (search_step strat inst)

/-- Function `search` (lines 251-284): `min` after `generation_limit` passes. -/
def search {Encoding Inf R AlgoType : Type} [LinearOrder R]
    (strat : Strategy Encoding Inf R AlgoType) (inst : Instance Encoding Inf R)
    (algorithm : AlgoType) (init : Encoding) : Option (Solution Encoding R) :=
  (search_run strat inst algorithm init inst.generation_limit).map (fun st => st.min)

/-- The algorithm state after one call of `select` for each entry of `inputs`, an entry
being the current solution and the neighbor list handed to that call. -/
def select_sequence {Encoding Inf R AlgoType : Type}
    (strat : Strategy Encoding Inf R AlgoType) (inst : Instance Encoding Inf R) :
    List (Solution Encoding R × List (Solution Encoding R)) → AlgoType → Option AlgoType
  | [], algorithm => some algorithm
  | (current, neighbors) :: rest, algorithm =>
    match strat.select inst current neighbors algorithm with
    | none => none
    | some (_, algorithm) => select_sequence strat inst rest algorithm

/-- The solutions returned by one call of `select` for each entry of `inputs`, in order,
and the algorithm state after the last call. -/
def select_results {Encoding Inf R AlgoType : Type}
    (strat : Strategy Encoding Inf R AlgoType) (inst : Instance Encoding Inf R) :
    List (Solution Encoding R × List (Solution Encoding R)) → AlgoType →
      Option (List (Solution Encoding R) × AlgoType)
  | [], algorithm => some ([], algorithm)
  | (current, neighbors) :: rest, algorithm =>
    match strat.select inst current neighbors algorithm with
    | none => none
    | some (result, algorithm) =>
      match select_results strat inst rest algorithm with
      | none => none
      | some (results, algorithm) => some (result :: results, algorithm)

/-- The neighbors whose trait is absent from the tabu queue and whose score is strictly
less than that of the first neighbor `front`, in list order. -/
def tabu_candidates {Encoding Inf Trait R : Type} [LinearOrder R] [DecidableEq Trait]
    (inf : Inf) (ts : TS Encoding Inf Trait) (neighbors : List (Solution Encoding R))
    (front : Solution Encoding R) : List (Solution Encoding R) :=
  neighbors.filter
    (fun n => decide (ts.trait n.encoding inf ∉ ts.queue) && decide (n.score < front.score))

/-- A sample problem: minimise `x * x` over the integers, the neighbors of `x` being
`x - 1` and `x + 1`. -/
def square_instance (generation_limit : Nat) : Instance Int Unit Int where
  generation_limit := generation_limit
  neighbors := fun x => [x - 1, x + 1]
  inf := ()
  evaluate := fun x _ => x * x

end Trajectory

namespace Evolutionary

/-- Why a call did not return a value: the language leaves the behaviour undefined (or an
exception is thrown), or a rejection loop of `DE_mutation` was still running when the given
finite supply of random draws ended. -/
inductive Fault where
  | undefined
  | starved
deriving DecidableEq, Repr

/-- Struct `DifferentialEvolution` (lines 156-164). Only the overloads of `DE_mate_select`
for `DE_Best` and of `DE_crossover` for `DE_None` are defined in the header, so these are
the strategies of every program that builds; `num_of_diff_vectors` is a `uint8_t`. -/
structure DifferentialEvolution (R : Type) where
  crossover_rate : R
  current_factor : R
  scaling_factor : R
  num_of_diff_vectors : Nat

/-- Struct `Evolutionary::Instance<Encoding>` (lines 172-177). -/
structure Instance (Encoding Inf R : Type) where
  generation_limit : Nat
  inf : Inf
  evaluate : Encoding → Inf → R

/-- Function `std::equal(first1, last1, first2)`: compares the first range with as many
elements starting at `first2`; reading past the end of the second container is undefined. -/
def std_equal {R : Type} [DecidableEq R] : List R → List R → Except Fault Bool
  | [], _ => .ok true
  | _ :: _, [] => .error .undefined
  | a :: as, b :: bs => if a = b then std_equal as bs else .ok false

/-- Method `operator()` of `_valarray_eq_binder` (lines 184-186), `_array` being the array
stored by `set`. -/
def _valarray_eq_binder {R : Type} [DecidableEq R] (_array : List R) (array : List R) :
    Except Fault Bool :=
  std_equal array _array

/-- Whether `std::find_if(first, last, pred)` differs from `last`. -/
def std_find_if {α : Type} (pred : α → Except Fault Bool) : List α → Except Fault Bool
  | [] => .ok false
  | x :: xs =>
    match pred x with
    | .error e => .error e
    | .ok true => .ok true
    | .ok false => std_find_if pred xs

/-- Elementwise `a - b` of two valarrays; undefined for different sizes. -/
def valarray_sub {R : Type} [Sub R] (a b : List R) : Except Fault (List R) :=
  if a.length = b.length then .ok (List.zipWith (fun x y => x - y) a b)
  else .error .undefined

/-- Elementwise `a += b` of two valarrays; undefined for different sizes. -/
def valarray_add {R : Type} [Add R] (a b : List R) : Except Fault (List R) :=
  if a.length = b.length then .ok (List.zipWith (fun x y => x + y) a b)
  else .error .undefined

/-- Product `c * a` of a scalar and a valarray. -/
def valarray_scale {R : Type} [Mul R] (c : R) (a : List R) : List R :=
  a.map (fun x => c * x)

/-- One `do ... while` loop of `DE_mutation` (lines 555-559 and 561-565): draw an index,
take that individual's encoding, repeat while the select pool holds an array the binder
accepts. The draws come from a finite list. -/
def DE_draw {R : Type} [DecidableEq R] (select_pool : List (List R))
    (population : List (Solution (List R) R)) :
    List Nat → Except Fault (List R × List Nat)
  | [] => .error .starved
  | rand_idx :: rest =>
    match population.get? rand_idx with
    | none => .error .undefined
    | some individual =>
      match std_find_if (_valarray_eq_binder individual.encoding) select_pool with
      | .error e => .error e
      | .ok true => DE_draw select_pool population rest
      | .ok false => .ok (individual.encoding, rest)

/-- The `for` loop of `DE_mutation` (lines 553-568), `diff_vecs` passes. -/
def DE_mutation_loop {R : Type} [DecidableEq R] [Add R] [Sub R]
    (population : List (Solution (List R) R)) :
    Nat → List (List R) → List R → List Nat →
      Except Fault (List R × List (List R) × List Nat)
  | 0, select_pool, mutant_vec, draws => .ok (mutant_vec, select_pool, draws)
  | diff_vecs + 1, select_pool, mutant_vec, draws =>
    match DE_draw select_pool population draws with
    | .error e => .error e
    | .ok (sol1, draws) =>
      let select_pool := select_pool ++ [sol1]
      match DE_draw select_pool population draws with
      | .error e => .error e
      | .ok (sol2, draws) =>
        let select_pool := select_pool ++ [sol2]
        match valarray_sub sol2 sol1 with
        | .error e => .error e
        | .ok diff =>
          match valarray_add mutant_vec diff with
          | .error e => .error e
          | .ok mutant_vec =>
            DE_mutation_loop population diff_vecs select_pool mutant_vec draws

/-- Function `DE_mutation` (lines 541-570); yields the offset, the grown select pool and the
unused draws. -/
def DE_mutation {R : Type} [DecidableEq R] [Ring R] (select_pool : List (List R))
    (population : List (Solution (List R) R)) (scaling_factor : R) (diff_vecs : Nat)
    (draws : List Nat) : Except Fault (List R × List (List R) × List Nat) :=
  match select_pool.head? with
  | none => .error .undefined
  | some sol1 =>
    let mutant_vec : List R := List.replicate sol1.length 0
    match DE_mutation_loop population diff_vecs select_pool mutant_vec draws with
    | .error e => .error e
    | .ok (mutant_vec, select_pool, draws) =>
      .ok (valarray_scale scaling_factor mutant_vec, select_pool, draws)

/-- Function `DE_mate_select` for `DE_Best` (lines 531-539): pushes the encoding found at
`std::min(population.begin(), population.end())` and returns it. -/
def DE_mate_select {R : Type} (select_pool : List (List R))
    (population : List (Solution (List R) R)) :
    Except Fault (List R × List (List R)) :=
  match deref population (std_min 0 population.length) with
  | none => .error .undefined
  | some best => .ok (best.encoding, select_pool ++ [best.encoding])

/-- Function `DE_crossover` for `DE_None` (lines 572-579). -/
def DE_crossover {R : Type} (_target_vec mutant_vec : List R) (_crossover_rate : R) :
    List R :=
  mutant_vec

/-- Function `DE_mate` (lines 518-529). -/
def DE_mate {R : Type} [DecidableEq R] [Ring R] (target_vec : List R)
    (population : List (Solution (List R) R)) (de : DifferentialEvolution R)
    (draws : List Nat) : Except Fault (List R × List Nat) :=
  let select_pool := [target_vec]
  match DE_mate_select select_pool population with
  | .error e => .error e
  | .ok (mutant_vec, select_pool) =>
    match DE_mutation select_pool population de.scaling_factor de.num_of_diff_vectors
        draws with
    | .error e => .error e
    | .ok (offset, _, draws) =>
      match valarray_add mutant_vec offset with
      | .error e => .error e
      | .ok mutant_vec =>
        let _trial_vec := DE_crossover target_vec mutant_vec de.crossover_rate
        .ok (target_vec, draws)

/-- The body of the loop of `generate` (lines 507-513) for index `i`. -/
def generate_at {Inf R : Type} [LinearOrderedRing R] (inst : Instance (List R) Inf R)
    (de : DifferentialEvolution R) (i : Nat) (population : List (Solution (List R) R))
    (draws : List Nat) : Except Fault (List (Solution (List R) R) × List Nat) :=
  match population.get? i with
  | none => .error .undefined
  | some individual =>
    let target_vec := individual.encoding
    match DE_mate target_vec population de draws with
    | .error e => .error e
    | .ok (trial_vec, draws) =>
      let trial_score := inst.evaluate trial_vec inst.inf
      if trial_score < individual.score then
        .ok (population.set i (Solution.mk trial_vec trial_score), draws)
      else .ok (population, draws)

/-- The loop of `generate` from index `i` on, `remaining` indices being left. -/
def generate_loop {Inf R : Type} [LinearOrderedRing R] (inst : Instance (List R) Inf R)
    (de : DifferentialEvolution R) :
    Nat → Nat → List (Solution (List R) R) → List Nat →
      Except Fault (List (Solution (List R) R) × List Nat)
  | 0, _, population, draws => .ok (population, draws)
  | remaining + 1, i, population, draws =>
    match generate_at inst de i population draws with
    | .error e => .error e
    | .ok (population, draws) => generate_loop inst de remaining (i + 1) population draws

/-- Function `generate` (lines 501-515): one pass over the indices `0 .. size - 1`. -/
def generate {Inf R : Type} [LinearOrderedRing R] (inst : Instance (List R) Inf R)
    (population : List (Solution (List R) R)) (de : DifferentialEvolution R)
    (draws : List Nat) : Except Fault (List (Solution (List R) R) × List Nat) :=
  generate_loop inst de population.length 0 population draws

/-- Function `initialize_popultion` (lines 487-499). -/
def initialize_popultion {Encoding Inf R : Type} (inst : Instance Encoding Inf R)
    (init : List Encoding) : List (Solution Encoding R) :=
  init.map (fun s => Solution.mk s (inst.evaluate s inst.inf))

/-- The loop of `evolution` (lines 435-440): that many calls of `generate`. -/
def evolution_loop {Inf R : Type} [LinearOrderedRing R] (inst : Instance (List R) Inf R)
    (de : DifferentialEvolution R) :
    Nat → List (Solution (List R) R) → List Nat →
      Except Fault (List (Solution (List R) R) × List Nat)
  | 0, population, draws => .ok (population, draws)
  | generations + 1, population, draws =>
    match generate inst population de draws with
    | .error e => .error e
    | .ok (population, draws) => evolution_loop inst de generations population draws

/-- The population of `evolution` when its loop has ended (lines 433-440). -/
def final_population {Inf R : Type} [LinearOrderedRing R] (inst : Instance (List R) Inf R)
    (algorithm : DifferentialEvolution R) (init : List (List R)) (draws : List Nat) :
    Except Fault (List (Solution (List R) R) × List Nat) :=
  evolution_loop inst algorithm inst.generation_limit (initialize_popultion inst init) draws

/-- Function `evolution` (lines 428-444): the individual found at
`std::min(population.begin(), population.end())` of the final population. -/
def evolution {Inf R : Type} [LinearOrderedRing R] (inst : Instance (List R) Inf R)
    (algorithm : DifferentialEvolution R) (init : List (List R)) (draws : List Nat) :
    Except Fault (Solution (List R) R) :=
  match final_population inst algorithm init draws with
  | .error e => .error e
  | .ok (population, _) =>
    match deref population (std_min 0 population.length) with
    | none => .error .undefined
    | some min => .ok min

/-- Lines 523-526 of `DE_mate`: the mutant vector, that is the base that `DE_mate_select`
yields plus the offset that `DE_mutation` yields, with the select pool and the unused
draws. -/
def DE_mate_mutant {R : Type} [DecidableEq R] [Ring R] (target_vec : List R)
    (population : List (Solution (List R) R)) (de : DifferentialEvolution R)
    (draws : List Nat) : Except Fault (List R × List (List R) × List Nat) :=
  let select_pool := [target_vec]
  match DE_mate_select select_pool population with
  | .error e => .error e
  | .ok (mutant_vec, select_pool) =>
    match DE_mutation select_pool population de.scaling_factor de.num_of_diff_vectors
        draws with
    | .error e => .error e
    | .ok (offset, select_pool, draws) =>
      match valarray_add mutant_vec offset with
      | .error e => .error e
      | .ok mutant_vec => .ok (mutant_vec, select_pool, draws)

/-- Struct `_DE_INF_WRAPPER<FP>` (lines 166-170). The caller's `std::vector<FP>` encoding is
an `Array`, which keeps it apart from the valarray (a list) that the engine works on. -/
structure _DE_INF_WRAPPER (Inf R : Type) where
  original_evaluate : Array R → Inf → R
  original_inf : Inf

/-- The constructor `std::valarray<FP>(s.data(), s.size())` of line 469: a valarray of
`s.size()` elements, the element at `i` being a copy of `s[i]`. -/
def valarray_of_vector {R : Type} (s : Array R) : List R :=
  List.ofFn (fun i : Fin s.size => s[i])

/-- The constructor `std::vector<FP>(std::begin(a), std::end(a))` of lines 473 and 584:
the elements of the valarray pushed in order. -/
def vector_of_valarray {R : Type} (a : List R) : Array R :=
  a.foldl (fun v x => v.push x) Array.empty

/-- Function `_DE_EVALUATE_WRAPPER` (lines 581-587). -/
def _DE_EVALUATE_WRAPPER {Inf R : Type} (sol : List R) (inf : _DE_INF_WRAPPER Inf R) : R :=
  let vsol := vector_of_valarray sol
  inf.original_evaluate vsol inf.original_inf

/-- The instance `Uinstance` that the `std::vector<FP>` overload of `evolution` builds
(lines 455-462). -/
def Uinstance_of {Inf R : Type} (inst : Instance (Array R) Inf R) :
    Instance (List R) (_DE_INF_WRAPPER Inf R) R where
  evaluate := _DE_EVALUATE_WRAPPER
  generation_limit := inst.generation_limit
  inf := { original_evaluate := inst.evaluate, original_inf := inst.inf }

/-- The overload of `evolution` for `std::vector<FP>` encodings (lines 448-476). -/
def evolution_vector {Inf R : Type} [LinearOrderedRing R] (inst : Instance (Array R) Inf R)
    (de : DifferentialEvolution R) (init : List (Array R)) (draws : List Nat) :
    Except Fault (Solution (Array R) R) :=
  let Uinstance := Uinstance_of inst
  let valarray_init := init.map valarray_of_vector
  match evolution Uinstance de valarray_init draws with
  | .error e => .error e
  | .ok result =>
    let vec_result := vector_of_valarray result.encoding
    .ok (Solution.mk vec_result result.score)

/-- The vectors of the accepted difference pairs `(v1, v2)` in the order in which
`DE_mutation` pushes them to the select pool. -/
def accepted_vectors {R : Type} : List (List R × List R) → List (List R)
  | [] => []
  | (v1, v2) :: rest => v1 :: v2 :: accepted_vectors rest

/-- Slot by slot, `after` has the same slots as `before` and no larger scores. -/
def NoRegress {Encoding R : Type} [LinearOrder R]
    (before after : List (Solution Encoding R)) : Prop :=
  after.length = before.length ∧
    ∀ i p, before.get? i = some p → ∃ p', after.get? i = some p' ∧ p'.score ≤ p.score

/-- A sample problem: minimise the sum of the coordinates of an integer vector. -/
def sum_instance (generation_limit : Nat) : Instance (List Int) Unit Int where
  generation_limit := generation_limit
  inf := ()
  evaluate := fun e _ => e.sum

end Evolutionary

end MH

namespace MH

open Trajectory Evolutionary

/-! Selection policies of the trajectory strategies -/

/-- C1, evaluated on the code: with current score 10 and the neighbors of scores 5 and 3 in
this order, Best-Improving returns the first neighbor (score 5), although the neighbor of
globally minimum score (3) is in the list and is strictly better than current. -/
theorem select_II_BestImproving_takes_front :
    select_II (⟨0, 10⟩ : Solution Int Int) [⟨1, 5⟩, ⟨2, 3⟩] IIStrategy.II_BestImproving
        = some ⟨1, 5⟩ ∧
      (⟨2, 3⟩ : Solution Int Int) ∈ [(⟨1, 5⟩ : Solution Int Int), ⟨2, 3⟩] ∧
      (∀ n ∈ [(⟨1, 5⟩ : Solution Int Int), ⟨2, 3⟩], (3 : Int) ≤ n.score) ∧
      (3 : Int) < 10 := by
  decide

/-- C2, evaluated on the code: the queue holds trait 0, the first neighbor has trait 0 and
score 1, the second has trait 1 (absent from the queue) and score 5. Tabu selection returns
the first neighbor, whose trait is in the queue, and pushes that trait again. -/
theorem select_with_TS_takes_tabu_front :
    (select_with_TS (⟨1, fun _ => [], (), fun e _ => e⟩ : Trajectory.Instance Int Unit Int)
        ⟨7, 7⟩ [⟨0, 1⟩, ⟨1, 5⟩]
        (⟨1, fun e _ => e, [0]⟩ : TS Int Unit Int)).map (fun r => (r.1, r.2.queue))
        = some (⟨0, 1⟩, [0]) ∧
      (0 : Int) ∈ [(0 : Int)] ∧ (1 : Int) ∉ [(0 : Int)] := by
  decide

/-- C3: First-Improving selection over any neighbor list, the empty one included. Either
the list splits at the returned neighbor, which is strictly better than current while no
neighbor before it is, or no neighbor is strictly better and current is returned. -/
theorem select_II_FirstImproving_first_better {Encoding R : Type} [LinearOrder R]
    (current : Solution Encoding R) (neighbors : List (Solution Encoding R)) :
    ∃ result, select_II current neighbors IIStrategy.II_FirstImproving = some result ∧
      ((∃ before after, neighbors = before ++ result :: after ∧
          (∀ m ∈ before, ¬ m.score < current.score) ∧ result.score < current.score) ∨
        ((∀ m ∈ neighbors, ¬ m.score < current.score) ∧ result = current)) := by
  refine ⟨select_II_FirstImproving current neighbors, rfl, ?_⟩
  induction neighbors with
  | nil => exact Or.inr ⟨by simp, rfl⟩
  | cons n rest ih =>
    by_cases hn : n.score < current.score
    · left
      refine ⟨[], rest, ?_, by simp, ?_⟩
      · simp [select_II_FirstImproving, Solution.lt, hn]
      · simp [select_II_FirstImproving, Solution.lt, hn]
    · have hstep : select_II_FirstImproving current (n :: rest)
          = select_II_FirstImproving current rest := by
        simp [select_II_FirstImproving, Solution.lt, hn]
      rw [hstep]
      rcases ih with ⟨before, after, hsplit, hbefore, hbetter⟩ | ⟨hnone, hcur⟩
      · left
        refine ⟨n :: before, after, by simp [← hsplit], ?_, hbetter⟩
        intro m hm
        rcases List.mem_cons.mp hm with rfl | hm
        · exact hn
        · exact hbefore m hm
      · right
        refine ⟨?_, hcur⟩
        intro m hm
        rcases List.mem_cons.mp hm with rfl | hm
        · exact hn
        · exact hnone m hm

/-- C4, evaluated on the code over the reals: at temperature 2, with current and the only
neighbor both of score 0 and the draw 3/4, the code compares exp(0) / 2 = 1/2 with 3/4 and
returns current, while exp((0 - 0) / 2) = 1 exceeds the draw. -/
theorem select_SA_divides_after_exp :
    (select_SA Real.exp 2 (⟨0, 0⟩ : Solution Int ℝ) [⟨1, 0⟩] (fun _ => 3 / 4)).1 = ⟨0, 0⟩ ∧
      Real.exp (((0 : ℝ) - 0) / 2) > 3 / 4 ∧ (0 : ℝ) < 2 ∧ (0 : ℝ) < 3 / 4 ∧
      (3 / 4 : ℝ) < 1 := by
  refine ⟨?_, ?_, by norm_num, by norm_num, by norm_num⟩
  · simp [select_SA, Solution.lt]
    norm_num
  · norm_num

/-! The trajectory controller -/

/-- What one pass of the loop of `search` does to `current` and `min`. -/
lemma search_step_some {Encoding Inf R AlgoType : Type} [LinearOrder R]
    (strat : Strategy Encoding Inf R AlgoType) (inst : Trajectory.Instance Encoding Inf R)
    (st st' : LoopState Encoding R AlgoType) (h : search_step strat inst st = some st') :
    st'.min = (if st'.current.score < st.min.score then st'.current else st.min) := by
  unfold search_step at h
  dsimp only at h
  split at h
  · exact absurd h (by simp)
  · rename_i c a _
    have h' := (Option.some.inj h).symm
    subst h'
    simp [Solution.lt]

/-- A defined state after `g + 1` passes comes from a defined state after `g` passes. -/
lemma search_run_succ_some {Encoding Inf R AlgoType : Type} [LinearOrder R]
    (strat : Strategy Encoding Inf R AlgoType) (inst : Trajectory.Instance Encoding Inf R)
    (algorithm : AlgoType) (init : Encoding) (g : Nat) (st' : LoopState Encoding R AlgoType)
    (h : search_run strat inst algorithm init (g + 1) = some st') :
    ∃ st, search_run strat inst algorithm init g = some st ∧
      search_step strat inst st = some st' := by
  simpa [search_run, Option.bind_eq_some] using h

/-- A defined state after `g` passes means every earlier state is defined. -/
lemma search_run_defined_below {Encoding Inf R AlgoType : Type} [LinearOrder R]
    (strat : Strategy Encoding Inf R AlgoType) (inst : Trajectory.Instance Encoding Inf R)
    (algorithm : AlgoType) (init : Encoding) (g : Nat) (st : LoopState Encoding R AlgoType)
    (h : search_run strat inst algorithm init g = some st) (i : Nat) (hi : i ≤ g) :
    ∃ sti, search_run strat inst algorithm init i = some sti := by
  induction g generalizing st with
  | zero =>
    have hi0 : i = 0 := Nat.le_zero.mp hi
    exact ⟨st, hi0 ▸ h⟩
  | succ g ih =>
    rcases Nat.lt_or_ge i (g + 1) with hlt | hge
    · obtain ⟨st0, h0, _⟩ := search_run_succ_some strat inst algorithm init g st h
      exact ih st0 h0 (Nat.lt_succ_iff.mp hlt)
    · have hig : i = g + 1 := Nat.le_antisymm hi hge
      exact ⟨st, hig ▸ h⟩

/-- Before the first pass `current` and `min` are the evaluated initial encoding. -/
lemma search_run_zero_some {Encoding Inf R AlgoType : Type} [LinearOrder R]
    (strat : Strategy Encoding Inf R AlgoType) (inst : Trajectory.Instance Encoding Inf R)
    (algorithm : AlgoType) (init : Encoding) (st : LoopState Encoding R AlgoType)
    (h : search_run strat inst algorithm init 0 = some st) :
    st.current = ⟨init, inst.evaluate init inst.inf⟩ ∧ st.min = st.current := by
  simp only [search_run, search_start] at h
  split at h
  · exact absurd h (by simp)
  · have h' := (Option.some.inj h).symm
    subst h'
    exact ⟨rfl, rfl⟩

/-- The loop invariant of `search`: `min` is the current solution of the earliest pass
whose score is least among the passes made so far. -/
lemma search_run_min_invariant {Encoding Inf R AlgoType : Type} [LinearOrder R]
    (strat : Strategy Encoding Inf R AlgoType) (inst : Trajectory.Instance Encoding Inf R)
    (algorithm : AlgoType) (init : Encoding) (g : Nat) (st : LoopState Encoding R AlgoType)
    (h : search_run strat inst algorithm init g = some st) :
    ∃ j stj, j ≤ g ∧ search_run strat inst algorithm init j = some stj ∧
      st.min = stj.current ∧
      (∀ i sti, i ≤ g → search_run strat inst algorithm init i = some sti →
        stj.current.score ≤ sti.current.score) ∧
      (∀ i sti, i < j → search_run strat inst algorithm init i = some sti →
        stj.current.score < sti.current.score) := by
  induction g generalizing st with
  | zero =>
    refine ⟨0, st, le_refl 0, h, (search_run_zero_some strat inst algorithm init st h).2,
      ?_, ?_⟩
    · intro i sti hi hrun
      have hi0 : i = 0 := Nat.le_zero.mp hi
      subst hi0
      rw [h] at hrun
      rw [Option.some.inj hrun]
    · intro i sti hi
      exact absurd hi (Nat.not_lt_zero i)
  | succ g ih =>
    obtain ⟨st0, h0, hstep⟩ := search_run_succ_some strat inst algorithm init g st h
    obtain ⟨j, stj, hj, hrunj, hmin, hle, hlt⟩ := ih st0 h0
    have hmin' := search_step_some strat inst st0 st hstep
    by_cases hc : st.current.score < st0.min.score
    · rw [if_pos hc] at hmin'
      refine ⟨g + 1, st, le_refl _, h, hmin', ?_, ?_⟩
      · intro i sti hi hrun
        rcases Nat.lt_or_ge i (g + 1) with hig | hig
        · have := hle i sti (Nat.lt_succ_iff.mp hig) hrun
          rw [← hmin] at this
          exact le_of_lt (lt_of_lt_of_le hc this)
        · have hi' : i = g + 1 := Nat.le_antisymm hi hig
          subst hi'
          rw [h] at hrun
          rw [Option.some.inj hrun]
      · intro i sti hi hrun
        have := hle i sti (Nat.lt_succ_iff.mp hi) hrun
        rw [← hmin] at this
        exact lt_of_lt_of_le hc this
    · rw [if_neg hc] at hmin'
      refine ⟨j, stj, Nat.le_succ_of_le hj, hrunj, hmin'.trans hmin, ?_, hlt⟩
      intro i sti hi hrun
      rcases Nat.lt_or_ge i (g + 1) with hig | hig
      · exact hle i sti (Nat.lt_succ_iff.mp hig) hrun
      · have hi' : i = g + 1 := Nat.le_antisymm hi hig
        subst hi'
        rw [h] at hrun
        rw [← Option.some.inj hrun, ← hmin]
        exact not_lt.mp hc

/-- C5: in a run of `search` for any strategy, whenever the states after `g` and after
`g + 1` generations are defined, the score of `min` after generation `g + 1` is at most
its score after generation `g`; and the solution `search` returns has a score at most
that of the evaluated initial encoding. -/
theorem search_min_nonincreasing {Encoding Inf R AlgoType : Type} [LinearOrder R]
    (strat : Strategy Encoding Inf R AlgoType) (inst : Trajectory.Instance Encoding Inf R)
    (algorithm : AlgoType) (init : Encoding) :
    (∀ g st st', search_run strat inst algorithm init g = some st →
        search_run strat inst algorithm init (g + 1) = some st' →
        st'.min.score ≤ st.min.score) ∧
      (∀ s, search strat inst algorithm init = some s →
        s.score ≤ inst.evaluate init inst.inf) := by
  constructor
  · intro g st st' hg hg'
    obtain ⟨st0, h0, hstep⟩ := search_run_succ_some strat inst algorithm init g st' hg'
    rw [hg] at h0
    have h0' := Option.some.inj h0
    subst h0'
    rw [search_step_some strat inst st st' hstep]
    split
    · exact le_of_lt ‹_›
    · exact le_refl _
  · intro s hs
    simp only [search, Option.map_eq_some'] at hs
    obtain ⟨st, hrun, hmin⟩ := hs
    obtain ⟨j, stj, _, _, hminj, hle, _⟩ :=
      search_run_min_invariant strat inst algorithm init _ st hrun
    obtain ⟨st0, hrun0⟩ := search_run_defined_below strat inst algorithm init _ st hrun 0
      (Nat.zero_le _)
    have hcur0 := (search_run_zero_some strat inst algorithm init st0 hrun0).1
    have := hle 0 st0 (Nat.zero_le _) hrun0
    rw [← hminj, hmin, hcur0] at this
    exact this

/-- C6: when `search` returns `s`, every state of the run is defined, the current solution
before the first generation is the evaluated initial encoding, and `s` is the current
solution `c_j` of a generation `j` whose score is at most that of every `c_i`,
`i ≤ generation_limit`, and strictly below that of every `c_i` with `i < j`. -/
theorem search_returns_earliest_best {Encoding Inf R AlgoType : Type} [LinearOrder R]
    (strat : Strategy Encoding Inf R AlgoType) (inst : Trajectory.Instance Encoding Inf R)
    (algorithm : AlgoType) (init : Encoding) (s : Solution Encoding R)
    (h : search strat inst algorithm init = some s) :
    (∀ i, i ≤ inst.generation_limit →
        ∃ sti, search_run strat inst algorithm init i = some sti) ∧
      (∀ st0, search_run strat inst algorithm init 0 = some st0 →
        st0.current = ⟨init, inst.evaluate init inst.inf⟩) ∧
      ∃ j stj, j ≤ inst.generation_limit ∧
        search_run strat inst algorithm init j = some stj ∧ s = stj.current ∧
        (∀ i sti, i ≤ inst.generation_limit →
          search_run strat inst algorithm init i = some sti →
          stj.current.score ≤ sti.current.score) ∧
        (∀ i sti, i < j → search_run strat inst algorithm init i = some sti →
          stj.current.score < sti.current.score) := by
  simp only [search, Option.map_eq_some'] at h
  obtain ⟨st, hrun, hmin⟩ := h
  refine ⟨fun i hi => search_run_defined_below strat inst algorithm init _ st hrun i hi,
    fun st0 h0 => (search_run_zero_some strat inst algorithm init st0 h0).1, ?_⟩
  obtain ⟨j, stj, hj, hrunj, hminj, hle, hlt⟩ :=
    search_run_min_invariant strat inst algorithm init _ st hrun
  exact ⟨j, stj, hj, hrunj, hmin ▸ hminj, hle, hlt⟩

/-- Witness of C5: First-Improving on `x * x` from 3 with two generations returns the
solution 1 of score 1, which is at most the initial score 9. -/
theorem search_min_nonincreasing_witness :
    search II_strategy (square_instance 2) ⟨IIStrategy.II_FirstImproving⟩ 3 = some ⟨1, 1⟩ ∧
      (1 : Int) ≤ (square_instance 2).evaluate 3 (square_instance 2).inf :=
  ⟨by decide,
    (search_min_nonincreasing II_strategy (square_instance 2)
      ⟨IIStrategy.II_FirstImproving⟩ 3).2 ⟨1, 1⟩ (by decide)⟩

/-- Witness of C6: Stochastic selection keeps current, so with two generations from 3 all
of `c_0, c_1, c_2` have score 9 and the run returns one of them, of score at most the
score of `c_2`. -/
theorem search_returns_earliest_best_witness :
    search II_strategy (square_instance 2) ⟨IIStrategy.II_Stochastic⟩ 3 = some ⟨3, 9⟩ ∧
      ∃ j stj, j ≤ 2 ∧
        search_run II_strategy (square_instance 2) ⟨IIStrategy.II_Stochastic⟩ 3 j
          = some stj ∧
        (⟨3, 9⟩ : Solution Int Int) = stj.current ∧
        ∀ i sti, i < j →
          search_run II_strategy (square_instance 2) ⟨IIStrategy.II_Stochastic⟩ 3 i
            = some sti →
          stj.current.score < sti.current.score := by
  have h := search_returns_earliest_best II_strategy (square_instance 2)
    ⟨IIStrategy.II_Stochastic⟩ 3 ⟨3, 9⟩ (by decide)
  obtain ⟨_, _, j, stj, hj, hrun, hs, _, hlt⟩ := h
  exact ⟨by decide, j, stj, hj, hrun, hs, hlt⟩

/-! Differential evolution -/

/-- C7, evaluated on the code: with `generation_limit = 0` and the initial population
`[2]`, `[1]` scored by the sum of coordinates, `evolution` returns the first individual
(score 2), while the final population holds an individual of score 1. -/
theorem evolution_takes_front :
    evolution (sum_instance 0) ⟨0, 0, 1, 1⟩ [[2], [1]] [] = .ok ⟨[2], 2⟩ ∧
      final_population (sum_instance 0) ⟨0, 0, 1, 1⟩ [[2], [1]] []
        = .ok ([⟨[2], 2⟩, ⟨[1], 1⟩], []) ∧
      (1 : Int) < 2 :=
  ⟨rfl, rfl, by decide⟩

/-- The mate that `DE_mate` returns is the target vector it was given. -/
lemma DE_mate_ok {R : Type} [DecidableEq R] [Ring R] (target_vec : List R)
    (population : List (Solution (List R) R)) (de : DifferentialEvolution R)
    (draws : List Nat) (v : List R) (draws' : List Nat)
    (h : DE_mate target_vec population de draws = .ok (v, draws')) : v = target_vec := by
  unfold DE_mate at h
  dsimp only at h
  split at h
  · exact absurd h (by simp)
  · split at h
    · exact absurd h (by simp)
    · split at h
      · exact absurd h (by simp)
      · injection h with h
        exact (congrArg Prod.fst h).symm

lemma Evolutionary.NoRegress.refl {Encoding R : Type} [LinearOrder R]
    (pop : List (Solution Encoding R)) : NoRegress pop pop :=
  ⟨rfl, fun _ p hp => ⟨p, hp, le_refl _⟩⟩

lemma Evolutionary.NoRegress.trans {Encoding R : Type} [LinearOrder R]
    {a b c : List (Solution Encoding R)} (hab : NoRegress a b) (hbc : NoRegress b c) :
    NoRegress a c := by
  refine ⟨hbc.1.trans hab.1, ?_⟩
  intro i p hp
  obtain ⟨p', hp', hle'⟩ := hab.2 i p hp
  obtain ⟨p'', hp'', hle''⟩ := hbc.2 i p' hp'
  exact ⟨p'', hp'', le_trans hle'' hle'⟩

/-- One index of `generate` leaves the slots in place and lowers no score. -/
lemma generate_at_ok {Inf R : Type} [LinearOrderedRing R]
    (inst : Evolutionary.Instance (List R) Inf R) (de : DifferentialEvolution R) (i : Nat)
    (population : List (Solution (List R) R)) (draws : List Nat)
    (population' : List (Solution (List R) R)) (draws' : List Nat)
    (h : generate_at inst de i population draws = .ok (population', draws')) :
    NoRegress population population' := by
  unfold generate_at at h
  split at h
  · exact absurd h (by simp)
  · rename_i individual hget
    dsimp only at h
    split at h
    · exact absurd h (by simp)
    · rename_i trial_vec draws1 _
      split at h
      · rename_i hlt
        injection h with h
        have hpop : population' = population.set i
            ⟨trial_vec, inst.evaluate trial_vec inst.inf⟩ := (congrArg Prod.fst h).symm
        subst hpop
        refine ⟨by simp, ?_⟩
        intro k p hp
        by_cases hk : i = k
        · subst hk
          rw [hget] at hp
          have hp' := Option.some.inj hp
          subst hp'
          refine ⟨⟨trial_vec, inst.evaluate trial_vec inst.inf⟩, ?_, le_of_lt hlt⟩
          have hi : i < population.length := by
            by_contra hcon
            rw [List.get?_eq_none.mpr (not_lt.mp hcon)] at hget
            exact absurd hget (by simp)
          simp [List.get?_eq_getElem?, List.getElem?_set, hi]
        · refine ⟨p, ?_, le_refl _⟩
          simpa [List.get?_eq_getElem?, List.getElem?_set, hk] using hp
      · injection h with h
        have hpop : population' = population := (congrArg Prod.fst h).symm
        subst hpop
        exact NoRegress.refl _

/-- The loop of `generate` leaves the slots in place and lowers no score. -/
lemma generate_loop_ok {Inf R : Type} [LinearOrderedRing R]
    (inst : Evolutionary.Instance (List R) Inf R) (de : DifferentialEvolution R)
    (remaining i : Nat) (population : List (Solution (List R) R)) (draws : List Nat)
    (population' : List (Solution (List R) R)) (draws' : List Nat)
    (h : generate_loop inst de remaining i population draws = .ok (population', draws')) :
    NoRegress population population' := by
  induction remaining generalizing i population draws with
  | zero =>
    simp only [generate_loop] at h
    injection h with h
    have hpop : population' = population := (congrArg Prod.fst h).symm
    subst hpop
    exact NoRegress.refl _
  | succ remaining ih =>
    simp only [generate_loop] at h
    split at h
    · exact absurd h (by simp)
    · rename_i pop1 draws1 hat
      exact (generate_at_ok inst de i population draws pop1 draws1 hat).trans
        (ih (i + 1) pop1 draws1 h)

/-- C8: whenever one call of `generate` completes, the population has as many slots as
before and at every index the score afterwards is at most the score before. -/
theorem generate_never_regresses {Inf R : Type} [LinearOrderedRing R]
    (inst : Evolutionary.Instance (List R) Inf R) (population : List (Solution (List R) R))
    (de : DifferentialEvolution R) (draws : List Nat)
    (population' : List (Solution (List R) R)) (draws' : List Nat)
    (h : generate inst population de draws = .ok (population', draws')) :
    population'.length = population.length ∧
      ∀ i p, population.get? i = some p →
        ∃ p', population'.get? i = some p' ∧ p'.score ≤ p.score :=
  generate_loop_ok inst de population.length 0 population draws population' draws' h

/-- Witness of C8: a population of four where the first slot carries a score (5) above the
sum of its encoding; one call of `generate` with one difference pair completes on the
given draws, replaces that slot by one of score 2 and keeps the others. -/
theorem generate_never_regresses_witness :
    generate (sum_instance 1) [⟨[2], 5⟩, ⟨[1], 1⟩, ⟨[3], 3⟩, ⟨[4], 4⟩] ⟨0, 0, 1, 1⟩
        [1, 1, 2, 3, 3, 2, 0, 1, 2, 3, 1, 2, 3, 0, 1, 2, 3, 0]
        = .ok ([⟨[2], 2⟩, ⟨[1], 1⟩, ⟨[3], 3⟩, ⟨[4], 4⟩], [3, 0, 1, 2, 3, 0]) ∧
      ([(⟨[2], 2⟩ : Solution (List Int) Int), ⟨[1], 1⟩, ⟨[3], 3⟩, ⟨[4], 4⟩].length
          = [(⟨[2], 5⟩ : Solution (List Int) Int), ⟨[1], 1⟩, ⟨[3], 3⟩, ⟨[4], 4⟩].length ∧
        ∀ i p,
          [(⟨[2], 5⟩ : Solution (List Int) Int), ⟨[1], 1⟩, ⟨[3], 3⟩, ⟨[4], 4⟩].get? i
            = some p →
          ∃ p', [(⟨[2], 2⟩ : Solution (List Int) Int), ⟨[1], 1⟩, ⟨[3], 3⟩, ⟨[4], 4⟩].get? i
            = some p' ∧ p'.score ≤ p.score) :=
  ⟨rfl, generate_never_regresses (sum_instance 1) _ ⟨0, 0, 1, 1⟩
    [1, 1, 2, 3, 3, 2, 0, 1, 2, 3, 1, 2, 3, 0, 1, 2, 3, 0] _ [3, 0, 1, 2, 3, 0] rfl⟩

/-! Strategy state: the cooling schedule and the tabu queue -/

/-- Division and remainder of `n + 1` by `L` from those of `n`. -/
lemma succ_div_mod (n L : Nat) (hL : 0 < L) :
    (n % L + 1 = L → (n + 1) / L = n / L + 1 ∧ (n + 1) % L = 0) ∧
      (n % L + 1 ≠ L → (n + 1) / L = n / L ∧ (n + 1) % L = n % L + 1) := by
  have hdm := Nat.div_add_mod n L
  have hlt := Nat.mod_lt n hL
  constructor
  · intro h
    refine (Nat.div_mod_unique hL).mpr ⟨?_, hL⟩
    rw [Nat.mul_succ]
    omega
  · intro h
    refine (Nat.div_mod_unique hL).mpr ⟨?_, by omega⟩
    omega

/-- The `SA` struct after `n` selection steps from the initialised one. -/
lemma SA_tick_iterate {R : Type} (sa : SA R) (hL : 1 ≤ sa.epoch_length) (n : Nat) :
    (SA_tick^[n] { sa with temperature := sa.init_temperature, epoch_count := 0 }).temperature
        = sa.cooling^[n / sa.epoch_length.toNat] sa.init_temperature ∧
      (SA_tick^[n] { sa with temperature := sa.init_temperature, epoch_count := 0 }).epoch_count
        = ((n % sa.epoch_length.toNat : Nat) : Int) ∧
      (SA_tick^[n] { sa with temperature := sa.init_temperature, epoch_count := 0 }).cooling
        = sa.cooling ∧
      (SA_tick^[n] { sa with temperature := sa.init_temperature, epoch_count := 0 }).epoch_length
        = sa.epoch_length := by
  have hLnat : 0 < sa.epoch_length.toNat := by omega
  have hcast : ((sa.epoch_length.toNat : Nat) : Int) = sa.epoch_length :=
    Int.toNat_of_nonneg (by omega)
  induction n with
  | zero => simp
  | succ n ih =>
    obtain ⟨ht, hc, hcool, hlen⟩ := ih
    rw [Function.iterate_succ_apply']
    obtain ⟨hwrap, hstay⟩ := succ_div_mod n sa.epoch_length.toNat hLnat
    simp only [SA_tick]
    split_ifs with heq
    · rw [hc, hlen] at heq
      have hnat : n % sa.epoch_length.toNat + 1 = sa.epoch_length.toNat := by omega
      obtain ⟨hdiv, hmod⟩ := hwrap hnat
      refine ⟨?_, ?_, hcool, hlen⟩
      · simp only [hdiv, Function.iterate_succ_apply', ht, hcool]
      · simp [hmod]
    · rw [hc, hlen] at heq
      have hnat : n % sa.epoch_length.toNat + 1 ≠ sa.epoch_length.toNat := by omega
      obtain ⟨hdiv, hmod⟩ := hstay hnat
      refine ⟨?_, ?_, hcool, hlen⟩
      · simp only [hdiv, ht]
      · simp [hmod, hc]

/-- Calls of the `select` overload for `SA` advance the struct by `SA_tick`, whatever the
inputs and the draws. -/
lemma select_sequence_SA {Encoding Inf R : Type} [LinearOrderedField R] (exp : R → R)
    (inst : Trajectory.Instance Encoding Inf R)
    (inputs : List (Solution Encoding R × List (Solution Encoding R)))
    (sa : SA R) (rng : Rng R) :
    ∃ rng', select_sequence (SA_strategy exp) inst inputs (sa, rng)
      = some (SA_tick^[inputs.length] sa, rng') := by
  induction inputs generalizing sa rng with
  | nil => exact ⟨rng, rfl⟩
  | cons input rest ih =>
    obtain ⟨current, neighbors⟩ := input
    obtain ⟨rng', h⟩ := ih (SA_tick sa)
      (select_SA exp sa.temperature current neighbors rng).2
    refine ⟨rng', ?_⟩
    rw [List.length_cons, Function.iterate_succ_apply, ← h]
    rfl

/-- The `SA` struct inside `search` after `g` generations. -/
lemma search_run_SA {Encoding Inf R : Type} [LinearOrderedField R] (exp : R → R)
    (inst : Trajectory.Instance Encoding Inf R) (sa : SA R) (rng : Rng R) (init : Encoding)
    (g : Nat) :
    ∃ st, search_run (SA_strategy exp) inst (sa, rng) init g = some st ∧
      st.algorithm.1
        = SA_tick^[g] { sa with temperature := sa.init_temperature, epoch_count := 0 } := by
  induction g with
  | zero => exact ⟨_, rfl, rfl⟩
  | succ g ih =>
    obtain ⟨st, hrun, hst⟩ := ih
    have hstep : ∃ st', search_step (SA_strategy exp) inst st = some st' ∧
        st'.algorithm.1 = SA_tick st.algorithm.1 := ⟨_, rfl, rfl⟩
    obtain ⟨st', hst', htick⟩ := hstep
    refine ⟨st', ?_, ?_⟩
    · simp only [search_run, hrun, Option.some_bind]
      exact hst'
    · rw [Function.iterate_succ_apply', ← hst]
      exact htick

/-- C9: for `epoch_length ≥ 1` and every `k`, after `initialize` and `k * epoch_length`
calls of `select` on arbitrary current solutions, neighbor lists and draws, the temperature
is `cooling` applied `k` times to `init_temperature` and `epoch_count` is 0; the same holds
for the `SA` struct inside `search` after `k * epoch_length` generations. -/
theorem SA_cooling_schedule {Encoding Inf R : Type} [LinearOrderedField R] (exp : R → R)
    (inst : Trajectory.Instance Encoding Inf R) (sa : SA R) (rng : Rng R) (init : Encoding)
    (k : Nat) (hL : 1 ≤ sa.epoch_length) :
    (∀ inputs : List (Solution Encoding R × List (Solution Encoding R)),
        inputs.length = k * sa.epoch_length.toNat →
        ∃ state, (initialize_SA inst (sa, rng) init).bind
            (select_sequence (SA_strategy exp) inst inputs) = some state ∧
          state.1.temperature = sa.cooling^[k] sa.init_temperature ∧
          state.1.epoch_count = 0) ∧
      ∃ st, search_run (SA_strategy exp) inst (sa, rng) init (k * sa.epoch_length.toNat)
          = some st ∧
        st.algorithm.1.temperature = sa.cooling^[k] sa.init_temperature ∧
        st.algorithm.1.epoch_count = 0 := by
  have hLnat : 0 < sa.epoch_length.toNat := by omega
  obtain ⟨ht, hc, _, _⟩ := SA_tick_iterate sa hL (k * sa.epoch_length.toNat)
  rw [Nat.mul_div_cancel k hLnat] at ht
  rw [Nat.mul_mod_left] at hc
  constructor
  · intro inputs hlen
    obtain ⟨rng', h⟩ := select_sequence_SA exp inst inputs
      { sa with temperature := sa.init_temperature, epoch_count := 0 } rng
    refine ⟨(SA_tick^[inputs.length]
      { sa with temperature := sa.init_temperature, epoch_count := 0 }, rng'), ?_, ?_, ?_⟩
    · simp only [initialize_SA, Option.some_bind]
      exact h
    · rw [hlen]
      exact ht
    · rw [hlen]
      exact hc
  · obtain ⟨st, hrun, hst⟩ := search_run_SA exp inst sa rng init (k * sa.epoch_length.toNat)
    exact ⟨st, hrun, hst ▸ ht, hst ▸ hc⟩

/-- Witness of C9: with `epoch_length = 2`, halving as cooling and initial temperature 8,
after `3 * 2` generations of `search` the temperature is 8 halved three times and
`epoch_count` is 0. The scores are rationals and the exponential is replaced by a rational
function, which the schedule does not depend on. -/
theorem SA_cooling_schedule_witness :
    (1 : Int) ≤ 2 ∧
      ∃ st, search_run (SA_strategy (fun x : ℚ => 1 + x))
          (⟨6, fun x => [x - 1, x + 1], (), fun x _ => (x : ℚ) * x⟩ :
            Trajectory.Instance Int Unit ℚ)
          ((⟨8, 2, fun t => t / 2, 0, 5⟩ : SA ℚ), fun _ => 1 / 2) 3 (3 * (2 : Int).toNat)
          = some st ∧
        st.algorithm.1.temperature = (fun t : ℚ => t / 2)^[3] 8 ∧
        st.algorithm.1.epoch_count = 0 :=
  ⟨by decide,
    (SA_cooling_schedule (fun x : ℚ => 1 + x)
      (⟨6, fun x => [x - 1, x + 1], (), fun x _ => (x : ℚ) * x⟩ :
        Trajectory.Instance Int Unit ℚ)
      (⟨8, 2, fun t => t / 2, 0, 5⟩ : SA ℚ) (fun _ => 1 / 2) 3 3 (by decide)).2⟩

/-- The queue that `initialize` builds holds `length` traits. -/
lemma initialize_TS_ok {Encoding Inf Trait R : Type} [Inhabited Trait]
    (inst : Trajectory.Instance Encoding Inf R) (ts : TS Encoding Inf Trait)
    (init : Encoding) (h : 0 ≤ ts.length) :
    ∃ ts0, initialize_TS inst ts init = some ts0 ∧
      (ts0.queue.length : Int) = ts.length := by
  refine ⟨_, if_pos h, ?_⟩
  simp only [std_fill, deque_resize, List.length_map, List.length_append, List.length_take,
    List.length_replicate]
  omega

/-- A tabu step over a non-empty neighbor list and a non-empty queue is defined and keeps
the number of traits in the queue. -/
lemma select_with_TS_length {Encoding Inf Trait R : Type} [LinearOrder R]
    [DecidableEq Trait] (inst : Trajectory.Instance Encoding Inf R)
    (current : Solution Encoding R) (neighbors : List (Solution Encoding R))
    (ts : TS Encoding Inf Trait) (hn : neighbors ≠ []) (hq : 1 ≤ ts.queue.length) :
    ∃ result ts', select_with_TS inst current neighbors ts = some (result, ts') ∧
      ts'.queue.length = ts.queue.length := by
  obtain ⟨length, trait, queue⟩ := ts
  cases neighbors with
  | nil => exact absurd rfl hn
  | cons front rest =>
    cases queue with
    | nil => exact absurd hq (by simp)
    | cons oldest popped => exact ⟨_, _, rfl, by simp⟩

/-- Any number of tabu steps over non-empty neighbor lists, from a non-empty queue, is
defined and keeps the number of traits in the queue. -/
lemma select_sequence_TS {Encoding Inf Trait R : Type} [LinearOrder R]
    [DecidableEq Trait] [Inhabited Trait] (inst : Trajectory.Instance Encoding Inf R)
    (inputs : List (Solution Encoding R × List (Solution Encoding R)))
    (hin : ∀ input ∈ inputs, input.2 ≠ []) (ts : TS Encoding Inf Trait)
    (hq : 1 ≤ ts.queue.length) :
    ∃ ts', select_sequence TS_strategy inst inputs ts = some ts' ∧
      ts'.queue.length = ts.queue.length := by
  induction inputs generalizing ts with
  | nil => exact ⟨ts, rfl, rfl⟩
  | cons input rest ih =>
    obtain ⟨current, neighbors⟩ := input
    obtain ⟨result, ts1, hsel, hlen⟩ := select_with_TS_length inst current neighbors ts
      (hin (current, neighbors) (List.mem_cons_self _ _)) hq
    obtain ⟨ts', hrest, hlen'⟩ := ih (fun input hmem => hin input (List.mem_cons_of_mem _ hmem))
      ts1 (hlen ▸ hq)
    refine ⟨ts', ?_, hlen'.trans hlen⟩
    have hsel' : (TS_strategy (R := R)).select inst current neighbors ts
        = some (result, ts1) := hsel
    simp only [select_sequence, hsel']
    exact hrest

/-- C10 as stated fails for `length = 0`: `initialize` leaves the queue empty, and the
selection step over the non-empty neighbor list `[1]` then pops an empty queue, so no
state with a queue of 0 traits results. -/
theorem TS_queue_length_zero_step_undefined :
    initialize_TS (square_instance 1) (⟨0, fun e _ => e, [7]⟩ : TS Int Unit Int) 0
        = some ⟨0, fun e _ => e, []⟩ ∧
      select_with_TS (square_instance 1) ⟨0, 0⟩ [⟨1, 1⟩]
        (⟨0, fun e _ => e, []⟩ : TS Int Unit Int) = none ∧
      ([(⟨1, 1⟩ : Solution Int Int)] ≠ []) :=
  ⟨rfl, rfl, by simp⟩

/-- C10 amended: for `length ≥ 0` the queue holds exactly `length` traits after
`initialize`; for `length ≥ 1`, after `initialize` and any number of selection steps over
non-empty neighbor lists, every step is defined and the queue holds exactly `length`
traits. -/
theorem TS_queue_length_invariant {Encoding Inf Trait R : Type} [LinearOrder R]
    [DecidableEq Trait] [Inhabited Trait] (inst : Trajectory.Instance Encoding Inf R)
    (ts : TS Encoding Inf Trait) (init : Encoding) :
    (0 ≤ ts.length → ∃ ts0, initialize_TS inst ts init = some ts0 ∧
        (ts0.queue.length : Int) = ts.length) ∧
      (1 ≤ ts.length →
        ∀ inputs : List (Solution Encoding R × List (Solution Encoding R)),
          (∀ input ∈ inputs, input.2 ≠ []) →
          ∃ ts', (initialize_TS inst ts init).bind
              (select_sequence TS_strategy inst inputs) = some ts' ∧
            (ts'.queue.length : Int) = ts.length) := by
  refine ⟨initialize_TS_ok inst ts init, ?_⟩
  intro h inputs hin
  obtain ⟨ts0, hinit, hlen0⟩ := initialize_TS_ok inst ts init (by omega)
  obtain ⟨ts', hseq, hlen⟩ := select_sequence_TS inst inputs hin ts0 (by omega)
  refine ⟨ts', ?_, by omega⟩
  rw [hinit, Option.some_bind]
  exact hseq

/-- Witness of C10 amended: with `length = 2`, started at encoding 3, after `initialize`
and two selection steps over the neighbor lists `[2, 4]` and `[1, 3]` (scored by the
square) the queue holds 2 traits. -/
theorem TS_queue_length_invariant_witness :
    (1 : Int) ≤ 2 ∧
      ∃ ts', (initialize_TS (square_instance 2) (⟨2, fun e _ => e, []⟩ : TS Int Unit Int)
            3).bind
          (select_sequence TS_strategy (square_instance 2)
            [(⟨3, 9⟩, [⟨2, 4⟩, ⟨4, 16⟩]), (⟨2, 4⟩, [⟨1, 1⟩, ⟨3, 9⟩])]) = some ts' ∧
        (ts'.queue.length : Int) = 2 :=
  ⟨by decide,
    (TS_queue_length_invariant (square_instance 2)
      (⟨2, fun e _ => e, []⟩ : TS Int Unit Int) 3).2 (by decide)
      [(⟨3, 9⟩, [⟨2, 4⟩, ⟨4, 16⟩]), (⟨2, 4⟩, [⟨1, 1⟩, ⟨3, 9⟩])] (by simp)⟩

/-! Scores and encodings -/

/-- An `II` selection returns current or one of the neighbors. -/
lemma select_II_selective {Encoding R : Type} [LinearOrder R]
    (current : Solution Encoding R) (neighbors : List (Solution Encoding R))
    (strategy : IIStrategy) (result : Solution Encoding R)
    (h : select_II current neighbors strategy = some result) :
    result = current ∨ result ∈ neighbors := by
  cases strategy with
  | II_BestImproving =>
    simp only [select_II, select_II_BestImproving] at h
    split at h
    · exact absurd h (by simp)
    · rename_i min hmin
      have hmem : min ∈ neighbors := List.get?_mem hmin
      have h' := (Option.some.inj h).symm
      subst h'
      split
      · exact Or.inr hmem
      · exact Or.inl rfl
  | II_FirstImproving =>
    have h' := (Option.some.inj h).symm
    subst h'
    clear h
    induction neighbors with
    | nil => exact Or.inl rfl
    | cons n rest ih =>
      simp only [select_II_FirstImproving]
      split
      · exact Or.inr (List.mem_cons_self _ _)
      · rcases ih with hc | hm
        · exact Or.inl hc
        · exact Or.inr (List.mem_cons_of_mem _ hm)
  | II_Stochastic =>
    exact Or.inl (Option.some.inj h).symm

/-- The function `select_SA` returns current or one of the neighbors. -/
lemma select_SA_selective {Encoding R : Type} [LinearOrderedField R] (exp : R → R)
    (temperature : R) (current : Solution Encoding R)
    (neighbors : List (Solution Encoding R)) (rng : Rng R) :
    (select_SA exp temperature current neighbors rng).1 = current ∨
      (select_SA exp temperature current neighbors rng).1 ∈ neighbors := by
  induction neighbors generalizing rng with
  | nil => exact Or.inl rfl
  | cons n rest ih =>
    simp only [select_SA]
    split
    · exact Or.inr (List.mem_cons_self _ _)
    · split
      · exact Or.inr (List.mem_cons_self _ _)
      · rcases ih rng.next with hc | hm
        · exact Or.inl hc
        · exact Or.inr (List.mem_cons_of_mem _ hm)

/-- The tabu scan ends on its starting solution or on one of the neighbors. -/
lemma TS_scan_selective {Encoding Inf Trait R : Type} [LinearOrder R] [DecidableEq Trait]
    (inf : Inf) (ts : TS Encoding Inf Trait) (neighbors : List (Solution Encoding R))
    (front : Solution Encoding R) :
    TS_scan inf ts neighbors front = front ∨ TS_scan inf ts neighbors front ∈ neighbors := by
  induction neighbors generalizing front with
  | nil => exact Or.inl rfl
  | cons n rest ih =>
    simp only [TS_scan, List.foldl_cons]
    split
    · rcases ih n with hc | hm
      · right
        rw [TS_scan] at hc
        rw [hc]
        exact List.mem_cons_self _ _
      · exact Or.inr (List.mem_cons_of_mem _ hm)
    · rcases ih front with hc | hm
      · exact Or.inl hc
      · exact Or.inr (List.mem_cons_of_mem _ hm)

/-- The tabu `select` returns one of the neighbors. -/
lemma select_with_TS_selective {Encoding Inf Trait R : Type} [LinearOrder R]
    [DecidableEq Trait] (inst : Trajectory.Instance Encoding Inf R)
    (current : Solution Encoding R) (neighbors : List (Solution Encoding R))
    (ts ts' : TS Encoding Inf Trait) (result : Solution Encoding R)
    (h : select_with_TS inst current neighbors ts = some (result, ts')) :
    result ∈ neighbors := by
  unfold select_with_TS at h
  split at h
  · exact absurd h (by simp)
  · rename_i front hfront
    dsimp only at h
    split at h
    · exact absurd h (by simp)
    · have h' := congrArg Prod.fst (Option.some.inj h)
      dsimp only at h'
      subst h'
      rcases TS_scan_selective inst.inf ts neighbors front with hc | hm
      · rw [hc]
        exact List.mem_of_mem_head? hfront
      · exact hm

/-- The selection that one pass of the loop of `search` makes. -/
lemma search_step_select {Encoding Inf R AlgoType : Type} [LinearOrder R]
    (strat : Strategy Encoding Inf R AlgoType) (inst : Trajectory.Instance Encoding Inf R)
    (st st' : LoopState Encoding R AlgoType) (h : search_step strat inst st = some st') :
    strat.select inst st.current
        ((inst.neighbors st.current.encoding).map
          (fun e => Solution.mk e (inst.evaluate e inst.inf)))
        st.algorithm = some (st'.current, st'.algorithm) := by
  unfold search_step at h
  dsimp only at h
  split at h
  · exact absurd h (by simp)
  · rename_i c a hsel
    have h' := (Option.some.inj h).symm
    subst h'
    exact hsel

/-- When every selection returns current or a neighbor, `current` and `min` carry the
score of their own encoding throughout the run of `search`. -/
lemma search_run_consistent {Encoding Inf R AlgoType : Type} [LinearOrder R]
    (strat : Strategy Encoding Inf R AlgoType)
    (hsel : ∀ inst current neighbors algorithm result algorithm',
      strat.select inst current neighbors algorithm = some (result, algorithm') →
      result = current ∨ result ∈ neighbors)
    (inst : Trajectory.Instance Encoding Inf R) (algorithm : AlgoType) (init : Encoding)
    (g : Nat) (st : LoopState Encoding R AlgoType)
    (h : search_run strat inst algorithm init g = some st) :
    st.current.score = inst.evaluate st.current.encoding inst.inf ∧
      st.min.score = inst.evaluate st.min.encoding inst.inf := by
  induction g generalizing st with
  | zero =>
    obtain ⟨hcur, hmin⟩ := search_run_zero_some strat inst algorithm init st h
    rw [hmin, hcur]
    exact ⟨rfl, rfl⟩
  | succ g ih =>
    obtain ⟨st0, h0, hstep⟩ := search_run_succ_some strat inst algorithm init g st h
    obtain ⟨hcur0, hmin0⟩ := ih st0 h0
    have hcur : st.current.score = inst.evaluate st.current.encoding inst.inf := by
      rcases hsel _ _ _ _ _ _ (search_step_select strat inst st0 st hstep) with hc | hm
      · rw [hc]
        exact hcur0
      · obtain ⟨e, _, he⟩ := List.mem_map.mp hm
        rw [← he]
    refine ⟨hcur, ?_⟩
    rw [search_step_some strat inst st0 st hstep]
    split
    · exact hcur
    · exact hmin0

/-- What `search` returns carries the score of its own encoding, when every selection
returns current or a neighbor. -/
lemma search_consistent {Encoding Inf R AlgoType : Type} [LinearOrder R]
    (strat : Strategy Encoding Inf R AlgoType)
    (hsel : ∀ inst current neighbors algorithm result algorithm',
      strat.select inst current neighbors algorithm = some (result, algorithm') →
      result = current ∨ result ∈ neighbors)
    (inst : Trajectory.Instance Encoding Inf R) (algorithm : AlgoType) (init : Encoding)
    (s : Solution Encoding R) (h : search strat inst algorithm init = some s) :
    s.score = inst.evaluate s.encoding inst.inf := by
  simp only [search, Option.map_eq_some'] at h
  obtain ⟨st, hrun, hmin⟩ := h
  rw [← hmin]
  exact (search_run_consistent strat hsel inst algorithm init _ st hrun).2

/-- One index of `generate` keeps every score equal to the evaluation of its encoding. -/
lemma generate_at_consistent {Inf R : Type} [LinearOrderedRing R]
    (inst : Evolutionary.Instance (List R) Inf R) (de : DifferentialEvolution R) (i : Nat)
    (population : List (Solution (List R) R)) (draws : List Nat)
    (population' : List (Solution (List R) R)) (draws' : List Nat)
    (h : generate_at inst de i population draws = .ok (population', draws'))
    (hpop : ∀ p ∈ population, p.score = inst.evaluate p.encoding inst.inf) :
    ∀ p ∈ population', p.score = inst.evaluate p.encoding inst.inf := by
  unfold generate_at at h
  split at h
  · exact absurd h (by simp)
  · dsimp only at h
    split at h
    · exact absurd h (by simp)
    · rename_i trial_vec draws1 _
      split at h
      · injection h with h
        have hp : population' = population.set i
            ⟨trial_vec, inst.evaluate trial_vec inst.inf⟩ := (congrArg Prod.fst h).symm
        subst hp
        intro p hmem
        rcases List.mem_or_eq_of_mem_set hmem with hm | he
        · exact hpop p hm
        · rw [he]
      · injection h with h
        have hp : population' = population := (congrArg Prod.fst h).symm
        subst hp
        exact hpop

/-- The loop of `generate` keeps every score equal to the evaluation of its encoding. -/
lemma generate_loop_consistent {Inf R : Type} [LinearOrderedRing R]
    (inst : Evolutionary.Instance (List R) Inf R) (de : DifferentialEvolution R)
    (remaining i : Nat) (population : List (Solution (List R) R)) (draws : List Nat)
    (population' : List (Solution (List R) R)) (draws' : List Nat)
    (h : generate_loop inst de remaining i population draws = .ok (population', draws'))
    (hpop : ∀ p ∈ population, p.score = inst.evaluate p.encoding inst.inf) :
    ∀ p ∈ population', p.score = inst.evaluate p.encoding inst.inf := by
  induction remaining generalizing i population draws with
  | zero =>
    simp only [generate_loop] at h
    injection h with h
    have hp : population' = population := (congrArg Prod.fst h).symm
    subst hp
    exact hpop
  | succ remaining ih =>
    simp only [generate_loop] at h
    split at h
    · exact absurd h (by simp)
    · rename_i pop1 draws1 hat
      exact ih (i + 1) pop1 draws1 h
        (generate_at_consistent inst de i population draws pop1 draws1 hat hpop)

/-- Any number of calls of `generate` keeps every score equal to the evaluation of its
encoding. -/
lemma evolution_loop_consistent {Inf R : Type} [LinearOrderedRing R]
    (inst : Evolutionary.Instance (List R) Inf R) (de : DifferentialEvolution R)
    (generations : Nat) (population : List (Solution (List R) R)) (draws : List Nat)
    (population' : List (Solution (List R) R)) (draws' : List Nat)
    (h : evolution_loop inst de generations population draws = .ok (population', draws'))
    (hpop : ∀ p ∈ population, p.score = inst.evaluate p.encoding inst.inf) :
    ∀ p ∈ population', p.score = inst.evaluate p.encoding inst.inf := by
  induction generations generalizing population draws with
  | zero =>
    simp only [evolution_loop] at h
    injection h with h
    have hp : population' = population := (congrArg Prod.fst h).symm
    subst hp
    exact hpop
  | succ generations ih =>
    simp only [evolution_loop] at h
    split at h
    · exact absurd h (by simp)
    · rename_i pop1 draws1 hgen
      exact ih pop1 draws1 h
        (generate_loop_consistent inst de _ 0 population draws pop1 draws1 hgen hpop)

/-- C11: the solution that `search` returns under `II`, `SA` (scores in a field `F`) or
`TS` has the score that `evaluate` gives its encoding; so has every member of the DE population after
`initialize_popultion`, after one call of `generate` on such a population, and after any
number of calls of `generate` from the initial population. -/
theorem solutions_carry_own_score {Encoding Inf Trait R F : Type} [LinearOrderedRing R]
    [LinearOrderedField F] [DecidableEq Trait] [Inhabited Trait] :
    (∀ (inst : Trajectory.Instance Encoding Inf R) (ii : II) (init : Encoding) s,
        search II_strategy inst ii init = some s →
        s.score = inst.evaluate s.encoding inst.inf) ∧
      (∀ (exp : F → F) (inst : Trajectory.Instance Encoding Inf F) (sa : SA F × Rng F)
          (init : Encoding) s,
        search (SA_strategy exp) inst sa init = some s →
        s.score = inst.evaluate s.encoding inst.inf) ∧
      (∀ (inst : Trajectory.Instance Encoding Inf R) (ts : TS Encoding Inf Trait)
          (init : Encoding) s,
        search TS_strategy inst ts init = some s →
        s.score = inst.evaluate s.encoding inst.inf) ∧
      (∀ (inst : Evolutionary.Instance (List R) Inf R) (init : List (List R)),
        ∀ p ∈ initialize_popultion inst init,
          p.score = inst.evaluate p.encoding inst.inf) ∧
      (∀ (inst : Evolutionary.Instance (List R) Inf R) (de : DifferentialEvolution R)
          population draws population' draws',
        generate inst population de draws = .ok (population', draws') →
        (∀ p ∈ population, p.score = inst.evaluate p.encoding inst.inf) →
        ∀ p ∈ population', p.score = inst.evaluate p.encoding inst.inf) ∧
      (∀ (inst : Evolutionary.Instance (List R) Inf R) (de : DifferentialEvolution R)
          (generations : Nat) (init : List (List R)) draws population' draws',
        evolution_loop inst de generations (initialize_popultion inst init) draws
          = .ok (population', draws') →
        ∀ p ∈ population', p.score = inst.evaluate p.encoding inst.inf) := by
  have hinit : ∀ (inst : Evolutionary.Instance (List R) Inf R) (init : List (List R)),
      ∀ p ∈ initialize_popultion inst init,
        p.score = inst.evaluate p.encoding inst.inf := by
    intro inst init p hp
    obtain ⟨e, _, he⟩ := List.mem_map.mp hp
    rw [← he]
  refine ⟨?_, ?_, ?_, hinit, ?_, ?_⟩
  · intro inst ii init s h
    refine search_consistent II_strategy ?_ inst ii init s h
    intro inst current neighbors algorithm result algorithm' hsel
    have hsel' : (select_II current neighbors algorithm.strategy).map
        (fun result => (result, algorithm)) = some (result, algorithm') := hsel
    obtain ⟨r, hr, hpair⟩ := Option.map_eq_some'.mp hsel'
    have hres : r = result := congrArg Prod.fst hpair
    rw [← hres]
    exact select_II_selective current neighbors _ r hr
  · intro exp inst sa init s h
    refine search_consistent (SA_strategy exp) ?_ inst sa init s h
    intro inst current neighbors algorithm result algorithm' hsel
    have hsel' : some ((select_SA exp algorithm.1.temperature current neighbors
        algorithm.2).1, (SA_tick algorithm.1, (select_SA exp algorithm.1.temperature
        current neighbors algorithm.2).2)) = some (result, algorithm') := hsel
    have hres := congrArg Prod.fst (Option.some.inj hsel')
    dsimp only at hres
    rw [← hres]
    exact select_SA_selective exp _ current neighbors _
  · intro inst ts init s h
    refine search_consistent TS_strategy ?_ inst ts init s h
    intro inst current neighbors algorithm result algorithm' hsel
    exact Or.inr (select_with_TS_selective inst current neighbors algorithm algorithm'
      result hsel)
  · intro inst de population draws population' draws' h hpop
    exact generate_loop_consistent inst de _ 0 population draws population' draws' h hpop
  · intro inst de generations init draws population' draws' h
    exact evolution_loop_consistent inst de generations _ draws population' draws' h
      (hinit inst init)

/-- Witness of C11: Tabu Search with a queue of two on `x * x` from 3 for two generations
returns the solution 1 of score 1, the square of its encoding. -/
theorem solutions_carry_own_score_witness :
    search TS_strategy (square_instance 2) (⟨2, fun e _ => e, []⟩ : TS Int Unit Int) 3
        = some ⟨1, 1⟩ ∧
      (1 : Int) = (square_instance 2).evaluate 1 (square_instance 2).inf :=
  ⟨by decide,
    (@solutions_carry_own_score Int Unit Int Int ℚ _ _ _ _).2.2.1 (square_instance 2)
      ⟨2, fun e _ => e, []⟩ 3 ⟨1, 1⟩ (by decide)⟩

/-! Boundary cases of the trajectory controller -/

/-- C12 as stated fails for Tabu Search with a negative `length`: with `length = -1` and
`generation_limit = 0`, `initialize` throws from `resize` and `search` returns nothing. -/
theorem search_zero_generations_negative_length :
    search TS_strategy (square_instance 0) (⟨-1, fun e _ => e, []⟩ : TS Int Unit Int) 3
        = none ∧
      (square_instance 0).generation_limit = 0 := by
  decide

/-- C12 amended: with `generation_limit = 0`, `search` returns exactly the initial encoding
with its evaluation under `II`, under `SA` and under `TS` with `length ≥ 0`, whatever the
neighbor function of the instance is; and for any overload set the result stays the same
when the `select` overload is replaced by any other, so no selection step is made. -/
theorem search_zero_generations {Encoding Inf Trait AlgoType R F : Type} [LinearOrder R]
    [LinearOrderedField F] [DecidableEq Trait] [Inhabited Trait] :
    (∀ (inst : Trajectory.Instance Encoding Inf R) (ii : II) (init : Encoding),
        inst.generation_limit = 0 →
        search II_strategy inst ii init = some ⟨init, inst.evaluate init inst.inf⟩) ∧
      (∀ (exp : F → F) (inst : Trajectory.Instance Encoding Inf F) (sa : SA F × Rng F)
          (init : Encoding),
        inst.generation_limit = 0 →
        search (SA_strategy exp) inst sa init = some ⟨init, inst.evaluate init inst.inf⟩) ∧
      (∀ (inst : Trajectory.Instance Encoding Inf R) (ts : TS Encoding Inf Trait)
          (init : Encoding),
        inst.generation_limit = 0 → 0 ≤ ts.length →
        search TS_strategy inst ts init = some ⟨init, inst.evaluate init inst.inf⟩) ∧
      (∀ (strat : Strategy Encoding Inf R AlgoType) (inst : Trajectory.Instance Encoding Inf R)
          (algorithm : AlgoType) (init : Encoding)
          (other_select : Trajectory.Instance Encoding Inf R → Solution Encoding R →
            List (Solution Encoding R) → AlgoType → Option (Solution Encoding R × AlgoType)),
        inst.generation_limit = 0 →
        search { strat with select := other_select } inst algorithm init
          = search strat inst algorithm init) := by
  refine ⟨?_, ?_, ?_, ?_⟩
  · intro inst ii init h
    simp only [search, h, search_run]
    rfl
  · intro exp inst sa init h
    simp only [search, h, search_run]
    rfl
  · intro inst ts init h hlen
    simp only [search, h, search_run, search_start]
    have hinit : (TS_strategy (R := R)).init_algorithm inst ts init
        = initialize_TS inst ts init := rfl
    rw [hinit]
    simp only [initialize_TS, if_pos hlen]
    rfl
  · intro strat inst algorithm init other_select h
    simp only [search, h, search_run, search_start]

/-- Witness of C12 amended: Tabu Search with `length = 1` and `generation_limit = 0` on
`x * x` from 3 returns the solution 3 of score 9. -/
theorem search_zero_generations_witness :
    (square_instance 0).generation_limit = 0 ∧ (0 : Int) ≤ 1 ∧
      search TS_strategy (square_instance 0) (⟨1, fun e _ => e, []⟩ : TS Int Unit Int) 3
        = some ⟨3, (square_instance 0).evaluate 3 (square_instance 0).inf⟩ :=
  ⟨rfl, by decide,
    (@search_zero_generations Int Unit Int Unit Int ℚ _ _ _ _).2.2.1 (square_instance 0)
      ⟨1, fun e _ => e, []⟩ 3 rfl (by decide)⟩

/-- A run of `search` that is undefined after some generation stays undefined. -/
lemma search_run_none_after {Encoding Inf R AlgoType : Type} [LinearOrder R]
    (strat : Strategy Encoding Inf R AlgoType) (inst : Trajectory.Instance Encoding Inf R)
    (algorithm : AlgoType) (init : Encoding) (g : Nat)
    (h : search_run strat inst algorithm init g = none) (g' : Nat) (hg : g ≤ g') :
    search_run strat inst algorithm init g' = none := by
  induction g' with
  | zero =>
    have h0 : g = 0 := Nat.le_zero.mp hg
    exact h0 ▸ h
  | succ g' ih =>
    rcases Nat.lt_or_ge g (g' + 1) with hlt | hge
    · simp only [search_run, ih (Nat.lt_succ_iff.mp hlt), Option.none_bind]
    · have hgg : g = g' + 1 := Nat.le_antisymm hg hge
      exact hgg ▸ h

/-- The `II` struct is the same throughout a run of `search`. -/
lemma search_run_II_algorithm {Encoding Inf R : Type} [LinearOrder R]
    (inst : Trajectory.Instance Encoding Inf R) (ii : II) (init : Encoding) (g : Nat)
    (st : LoopState Encoding R II) (h : search_run II_strategy inst ii init g = some st) :
    st.algorithm = ii := by
  induction g generalizing st with
  | zero =>
    have h' : some (LoopState.mk (Solution.mk init (inst.evaluate init inst.inf))
        (Solution.mk init (inst.evaluate init inst.inf)) ii) = some st := h
    rw [← Option.some.inj h']
  | succ g ih =>
    obtain ⟨st0, h0, hstep⟩ := search_run_succ_some II_strategy inst ii init g st h
    have hsel := search_step_select II_strategy inst st0 st hstep
    have hsel' : (select_II st0.current
        ((inst.neighbors st0.current.encoding).map
          (fun e => Solution.mk e (inst.evaluate e inst.inf))) st0.algorithm.strategy).map
        (fun result => (result, st0.algorithm)) = some (st.current, st.algorithm) := hsel
    obtain ⟨r, _, hpair⟩ := Option.map_eq_some'.mp hsel'
    have halg : st0.algorithm = st.algorithm := congrArg Prod.snd hpair
    rw [← halg]
    exact ih st0 h0

/-- C13 as stated fails: on the empty neighbor list Best-Improving dereferences the
iterator `std::min(begin(), end())`, which is `end()`, and Tabu Search takes `front()` of
the empty list; no failure value is produced by a guard, the result is that of the
undefined read, and `search` over a neighbor function that yields the empty list has no
defined result either. -/
theorem empty_neighborhood_is_read :
    std_min 0 ([] : List (Solution Int Int)).length = ([] : List (Solution Int Int)).length ∧
      select_II_BestImproving (⟨3, 9⟩ : Solution Int Int) []
        = (deref ([] : List (Solution Int Int)) ([] : List (Solution Int Int)).length).map
            (fun min => if min.lt ⟨3, 9⟩ then min else ⟨3, 9⟩) ∧
      select_II (⟨3, 9⟩ : Solution Int Int) [] IIStrategy.II_BestImproving = none ∧
      (select_with_TS (square_instance 1) ⟨3, 9⟩ []
        (⟨1, fun e _ => e, [3]⟩ : TS Int Unit Int)).isNone = true ∧
      search II_strategy
        (⟨1, fun _ => [], (), fun x _ => x * x⟩ : Trajectory.Instance Int Unit Int)
        ⟨IIStrategy.II_BestImproving⟩ 3 = none := by
  decide

/-- C13 amended: on the empty neighbor list First-Improving and Simulated Annealing return
current (Simulated Annealing without consuming a draw), while Best-Improving and Tabu
Search have no defined result; and when the neighbor function yields the empty list at a
generation below `generation_limit`, `search` under Best-Improving or Tabu Search has no
defined result. -/
theorem empty_neighborhood_behaviour {Encoding Inf Trait R F : Type} [LinearOrder R]
    [LinearOrderedField F] [DecidableEq Trait] [Inhabited Trait] :
    (∀ current : Solution Encoding R,
        select_II current [] IIStrategy.II_FirstImproving = some current) ∧
      (∀ (exp : F → F) (temperature : F) (current : Solution Encoding F) (rng : Rng F),
        select_SA exp temperature current [] rng = (current, rng)) ∧
      (∀ current : Solution Encoding R,
        select_II current [] IIStrategy.II_BestImproving = none) ∧
      (∀ (inst : Trajectory.Instance Encoding Inf R) (current : Solution Encoding R)
          (ts : TS Encoding Inf Trait),
        select_with_TS inst current [] ts = none) ∧
      (∀ (inst : Trajectory.Instance Encoding Inf R) (init : Encoding) (g : Nat) st,
        search_run II_strategy inst ⟨IIStrategy.II_BestImproving⟩ init g = some st →
        inst.neighbors st.current.encoding = [] → g < inst.generation_limit →
        search II_strategy inst ⟨IIStrategy.II_BestImproving⟩ init = none) ∧
      (∀ (inst : Trajectory.Instance Encoding Inf R) (ts : TS Encoding Inf Trait)
          (init : Encoding) (g : Nat) st,
        search_run TS_strategy inst ts init g = some st →
        inst.neighbors st.current.encoding = [] → g < inst.generation_limit →
        search TS_strategy inst ts init = none) := by
  refine ⟨fun _ => rfl, fun _ _ _ _ => rfl, fun _ => rfl, fun _ _ _ => rfl, ?_, ?_⟩
  · intro inst init g st hrun hempty hg
    have halg := search_run_II_algorithm inst ⟨IIStrategy.II_BestImproving⟩ init g st hrun
    have hnext : search_run II_strategy inst ⟨IIStrategy.II_BestImproving⟩ init (g + 1)
        = none := by
      simp only [search_run, hrun, Option.some_bind, search_step, hempty, List.map_nil,
        halg]
      rfl
    simp only [search, search_run_none_after _ inst _ init (g + 1) hnext _ hg,
      Option.map_none']
  · intro inst ts init g st hrun hempty hg
    have hnext : search_run TS_strategy inst ts init (g + 1) = none := by
      simp only [search_run, hrun, Option.some_bind, search_step, hempty, List.map_nil]
      rfl
    simp only [search, search_run_none_after _ inst _ init (g + 1) hnext _ hg,
      Option.map_none']

/-- Witness of C13 amended: Best-Improving on `x * x` from 3 with a neighbor function that
yields the empty list and `generation_limit = 1` has no defined result. -/
theorem empty_neighborhood_behaviour_witness :
    (0 < 1) ∧
      search II_strategy
        (⟨1, fun _ => [], (), fun x _ => x * x⟩ : Trajectory.Instance Int Unit Int)
        ⟨IIStrategy.II_BestImproving⟩ 3 = none :=
  ⟨by decide,
    (@empty_neighborhood_behaviour Int Unit Int Int ℚ _ _ _ _).2.2.2.2.1
      ⟨1, fun _ => [], (), fun x _ => x * x⟩ 3 0 ⟨⟨3, 9⟩, ⟨3, 9⟩, ⟨IIStrategy.II_BestImproving⟩⟩
      rfl rfl (by decide)⟩

/-! The numeric adaptation shim -/

/-- The valarray built from a vector holds the elements of the vector in order. -/
lemma valarray_of_vector_toList {R : Type} (s : Array R) :
    valarray_of_vector s = s.toList := by
  apply List.ext_getElem
  · simp [valarray_of_vector]
  · intro n h1 h2
    simp [valarray_of_vector]

/-- Pushing the elements of a list onto a vector appends them. -/
lemma foldl_push_toList {R : Type} (a : List R) (acc : Array R) :
    (a.foldl (fun v x => v.push x) acc).toList = acc.toList ++ a := by
  induction a generalizing acc with
  | nil => simp
  | cons x xs ih => simp [ih]

/-- The vector built from a valarray holds the elements of the valarray in order. -/
lemma vector_of_valarray_toList {R : Type} (a : List R) :
    (vector_of_valarray a).toList = a := by
  simp [vector_of_valarray, foldl_push_toList, Array.empty]

/-- What `evolution` returns is a member of the final population. -/
lemma evolution_mem_final {Inf R : Type} [LinearOrderedRing R]
    (inst : Evolutionary.Instance (List R) Inf R) (de : DifferentialEvolution R)
    (init : List (List R)) (draws : List Nat) (result : Solution (List R) R)
    (h : evolution inst de init draws = .ok result) :
    ∃ population draws', final_population inst de init draws = .ok (population, draws') ∧
      result ∈ population := by
  unfold evolution at h
  split at h
  · exact absurd h (by simp)
  · rename_i population draws' hfinal
    split at h
    · exact absurd h (by simp)
    · rename_i min hmin
      injection h with h
      exact ⟨population, draws', hfinal, h ▸ List.get?_mem hmin⟩

/-- C14: converting a vector to the valarray form and back yields the vector, the valarray
form having the same length and the same element at every index; the wrapped evaluation
of the valarray form of `v` is the caller's `evaluate(v, original_inf)`; and when the run
on valarrays returns `result`, the vector overload of `evolution` returns the same
elements in order with the same score, which is the caller's evaluation of that vector. -/
theorem shim_round_trip {Inf R : Type} [LinearOrderedRing R] :
    (∀ v : Array R, vector_of_valarray (valarray_of_vector v) = v ∧
        (valarray_of_vector v).length = v.size ∧
        ∀ i (h : i < v.size), (valarray_of_vector v).get? i = some v[i]) ∧
      (∀ (inst : Evolutionary.Instance (Array R) Inf R) (v : Array R),
        (Uinstance_of inst).evaluate (valarray_of_vector v) (Uinstance_of inst).inf
          = inst.evaluate v inst.inf) ∧
      (∀ (inst : Evolutionary.Instance (Array R) Inf R) (de : DifferentialEvolution R)
          (init : List (Array R)) (draws : List Nat) (result : Solution (List R) R),
        evolution (Uinstance_of inst) de (init.map valarray_of_vector) draws = .ok result →
        ∃ vec, evolution_vector inst de init draws = .ok vec ∧
          vec.encoding.toList = result.encoding ∧
          vec.encoding.size = result.encoding.length ∧
          vec.score = result.score ∧
          vec.score = inst.evaluate vec.encoding inst.inf) := by
  have hround : ∀ v : Array R, vector_of_valarray (valarray_of_vector v) = v := by
    intro v
    apply Array.ext'
    rw [vector_of_valarray_toList, valarray_of_vector_toList]
  refine ⟨?_, ?_, ?_⟩
  · intro v
    refine ⟨hround v, by simp [valarray_of_vector], ?_⟩
    intro i h
    simp [valarray_of_vector_toList, List.get?_eq_getElem?, h]
  · intro inst v
    show inst.evaluate (vector_of_valarray (valarray_of_vector v)) inst.inf
      = inst.evaluate v inst.inf
    rw [hround v]
  · intro inst de init draws result h
    refine ⟨⟨vector_of_valarray result.encoding, result.score⟩, ?_,
      vector_of_valarray_toList _, ?_, rfl, ?_⟩
    · simp only [evolution_vector, h]
    · have := congrArg List.length (vector_of_valarray_toList result.encoding)
      simpa using this
    · obtain ⟨population, draws', hfinal, hmem⟩ :=
        evolution_mem_final (Uinstance_of inst) de _ draws result h
      exact evolution_loop_consistent (Uinstance_of inst) de _ _ draws population draws'
        hfinal
        (fun p hp => by
          obtain ⟨e, _, he⟩ := List.mem_map.mp hp
          rw [← he])
        result hmem

/-- Witness of C14: the vector overload of `evolution`, on the vectors (2) and (1) scored
by their first element with `generation_limit = 0`, returns the vector (2) with score 2,
as the run on valarrays does. -/
theorem shim_round_trip_witness :
    evolution
        (Uinstance_of (⟨0, (), fun v _ => v.getD 0 0⟩ : Evolutionary.Instance (Array Int) Unit Int))
        ⟨0, 0, 1, 1⟩ ([[2].toArray, [1].toArray].map valarray_of_vector) [] = .ok ⟨[2], 2⟩ ∧
      ∃ vec, evolution_vector
          (⟨0, (), fun v _ => v.getD 0 0⟩ : Evolutionary.Instance (Array Int) Unit Int)
          ⟨0, 0, 1, 1⟩ [[2].toArray, [1].toArray] [] = .ok vec ∧
        vec.encoding.toList = [2] ∧ vec.score = 2 := by
  have h : evolution
      (Uinstance_of (⟨0, (), fun v _ => v.getD 0 0⟩ : Evolutionary.Instance (Array Int) Unit Int))
      ⟨0, 0, 1, 1⟩ ([[2].toArray, [1].toArray].map valarray_of_vector) [] = .ok ⟨[2], 2⟩ :=
    rfl
  obtain ⟨vec, hvec, hlist, _, hscore, _⟩ :=
    (@shim_round_trip Unit Int _).2.2 _ _ _ _ _ h
  exact ⟨h, vec, hvec, hlist, hscore⟩

/-! The concrete scenarios of the specification -/

/-- C15, evaluated on the code: from the initial encoding -3 with one generation,
Best-Improving looks only at the first neighbor -4 (score 16), keeps current, and `search`
returns -3 with score 9, where the claim has an encoding of absolute value 2 and score 4.
From 10 with five generations the first neighbor is always the better one and the run
returns 5 with score 25. -/
theorem best_improving_stalls_from_negative_start :
    search II_strategy (square_instance 1) ⟨IIStrategy.II_BestImproving⟩ (-3)
        = some ⟨-3, 9⟩ ∧
      (search_run II_strategy (square_instance 1) ⟨IIStrategy.II_BestImproving⟩ (-3) 1).map
          (fun st => st.current) = some ⟨-3, 9⟩ ∧
      (square_instance 1).generation_limit ≤ (-3 : Int).natAbs ∧
      search II_strategy (square_instance 5) ⟨IIStrategy.II_BestImproving⟩ 10
        = some ⟨5, 25⟩ := by
  decide

/-- C17, evaluated on the code: the encodings are 0 and 1 with the encoding as trait, all
scores are 0, the neighbor function yields 0 then 1, and the queue has length 1. Started
from 0, the current solution after generation 1 is 0 again and the queue holds trait 0,
where the claim has the other encoding, 1. -/
theorem tabu_two_encodings_no_alternation :
    (search_run TS_strategy
        (⟨1, fun _ => [0, 1], (), fun _ _ => 0⟩ : Trajectory.Instance Int Unit Int)
        (⟨1, fun e _ => e, []⟩ : TS Int Unit Int) 0 1).map
          (fun st => (st.current, st.algorithm.queue)) = some (⟨0, 0⟩, [0]) ∧
      (0 : Int) ≠ 1 := by
  decide

/-- C16 as stated fails on a tie: with current and the only neighbor both of score 0 and
every draw 1/2, at every temperature below 1 the neighbor passes the second test and is
returned although it is not strictly better, so no threshold `T0` makes the code return
current. -/
theorem select_SA_accepts_tie_at_low_temperature :
    (∀ T : ℝ, 0 < T → T < 1 →
        (select_SA Real.exp T (⟨0, 0⟩ : Solution Int ℝ) [⟨1, 0⟩] (fun _ => 1 / 2)).1
          = ⟨1, 0⟩) ∧
      ¬ ((0 : ℝ) < 0) ∧ (0 : ℝ) < 1 / 2 ∧ (1 / 2 : ℝ) < 1 ∧
      (∀ T0 : ℝ, 0 < T0 → ∃ T : ℝ, 0 < T ∧ T < T0 ∧
        (select_SA Real.exp T (⟨0, 0⟩ : Solution Int ℝ) [⟨1, 0⟩] (fun _ => 1 / 2)).1
          ≠ ⟨0, 0⟩) := by
  have hacc : ∀ T : ℝ, 0 < T → T < 1 →
      (select_SA Real.exp T (⟨0, 0⟩ : Solution Int ℝ) [⟨1, 0⟩] (fun _ => 1 / 2)).1
        = ⟨1, 0⟩ := by
    intro T hT hT1
    have h1 : (2 : ℝ)⁻¹ < T⁻¹ := by
      have h2 : 1 < T⁻¹ := (one_lt_inv₀ hT).mpr hT1
      have h3 : (2 : ℝ)⁻¹ < 1 := by norm_num
      exact lt_trans h3 h2
    simp [select_SA, Solution.lt, h1]
  refine ⟨hacc, by norm_num, by norm_num, by norm_num, ?_⟩
  intro T0 hT0
  refine ⟨min T0 1 / 2, ?_, ?_, ?_⟩
  · have := lt_min hT0 one_pos
    linarith
  · have h1 := min_le_left T0 1
    have := lt_min hT0 one_pos
    linarith
  · rw [hacc (min T0 1 / 2)]
    · simp
    · have := lt_min hT0 one_pos
      linarith
    · have h1 := min_le_right T0 1
      have := lt_min hT0 one_pos
      linarith

/-- C16 amended, over the reals: for every current solution and every stream of draws in
(0,1) there is a `T0 > 0` such that at every temperature `T` with `0 < T < T0`,
`select_SA` returns current on the empty neighbor list, and returns the first neighbor
whenever its score is at most that of current (strictly better by the first test, tied by
the second test, which a tie passes). Nothing is said of a first neighbor that is
strictly worse. -/
theorem select_SA_low_temperature {Encoding : Type} (current : Solution Encoding ℝ)
    (rng : Rng ℝ) (hrng : ∀ k, 0 < rng k ∧ rng k < 1) :
    ∃ T0 : ℝ, 0 < T0 ∧ ∀ T : ℝ, 0 < T → T < T0 →
      (select_SA Real.exp T current [] rng).1 = current ∧
      ∀ (n : Solution Encoding ℝ) (rest : List (Solution Encoding ℝ)),
        n.score ≤ current.score →
        (select_SA Real.exp T current (n :: rest) rng).1 = n := by
  refine ⟨1, one_pos, ?_⟩
  intro T hT hT1
  refine ⟨rfl, ?_⟩
  intro n rest hn
  rcases lt_or_eq_of_le hn with hlt | heq
  · simp [select_SA, Solution.lt, hlt]
  · have h1 : rng 0 < T⁻¹ := by
      have : 1 < T⁻¹ := (one_lt_inv₀ hT).mpr hT1
      linarith [(hrng 0).2]
    simp [select_SA, Solution.lt, heq, h1]

/-- Witness of C16 amended: with every draw 1/2 and current of score 0 there is such a
threshold, below which a tied first neighbor is returned. -/
theorem select_SA_low_temperature_witness :
    (∀ k : Nat, (0 : ℝ) < (fun _ => 1 / 2 : Rng ℝ) k ∧ (fun _ => 1 / 2 : Rng ℝ) k < 1) ∧
      ∃ T0 : ℝ, 0 < T0 ∧ ∀ T : ℝ, 0 < T → T < T0 →
        (select_SA Real.exp T (⟨0, 0⟩ : Solution Int ℝ) [⟨1, 0⟩] (fun _ => 1 / 2)).1
          = ⟨1, 0⟩ := by
  have hrng : ∀ k : Nat,
      (0 : ℝ) < (fun _ => 1 / 2 : Rng ℝ) k ∧ (fun _ => 1 / 2 : Rng ℝ) k < 1 := by
    intro k
    norm_num
  obtain ⟨T0, hT0, h⟩ := select_SA_low_temperature (⟨0, 0⟩ : Solution Int ℝ)
    (fun _ => 1 / 2) hrng
  exact ⟨hrng, T0, hT0, fun T hT hlt => (h T hT hlt).2 ⟨1, 0⟩ [] (le_refl _)⟩

/-! Mate construction in differential evolution -/

/-- Comparing an array with itself by `std::equal` finds no mismatch. -/
lemma std_equal_self {R : Type} [DecidableEq R] (a : List R) :
    std_equal a a = .ok true := by
  induction a with
  | nil => rfl
  | cons x xs ih => simp [std_equal, ih]

/-- On arrays of one size `std::equal` decides equality. -/
lemma std_equal_of_length_eq {R : Type} [DecidableEq R] (a b : List R)
    (h : a.length = b.length) : std_equal a b = .ok (decide (a = b)) := by
  induction a generalizing b with
  | nil =>
    cases b with
    | nil => rfl
    | cons y ys => exact absurd h (by simp)
  | cons x xs ih =>
    cases b with
    | nil => exact absurd h (by simp)
    | cons y ys =>
      have hlen : xs.length = ys.length := by simpa using h
      by_cases hxy : x = y
      · simp [std_equal, hxy, ih ys hlen]
      · simp [std_equal, hxy]

/-- A search of the select pool that finds nothing means the candidate is not in it. -/
lemma std_find_if_false {R : Type} [DecidableEq R] (x : List R) (pool : List (List R))
    (h : std_find_if (_valarray_eq_binder x) pool = .ok false) : x ∉ pool := by
  induction pool with
  | nil => simp
  | cons q rest ih =>
    unfold std_find_if at h
    split at h
    · exact absurd h (by simp)
    · exact absurd h (by simp)
    · rename_i hq
      intro hmem
      rcases List.mem_cons.mp hmem with hxq | hrest
      · rw [← hxq, _valarray_eq_binder, std_equal_self] at hq
        exact absurd hq (by simp)
      · exact ih h hrest

/-- On a pool of arrays of the candidate's size, the search decides membership. -/
lemma std_find_if_of_length_eq {R : Type} [DecidableEq R] (x : List R)
    (pool : List (List R)) (h : ∀ q ∈ pool, q.length = x.length) :
    std_find_if (_valarray_eq_binder x) pool = .ok (decide (x ∈ pool)) := by
  induction pool with
  | nil => simp [std_find_if]
  | cons q rest ih =>
    have hq : _valarray_eq_binder x q = .ok (decide (q = x)) :=
      std_equal_of_length_eq q x (h q (List.mem_cons_self _ _))
    have hrest := ih (fun r hr => h r (List.mem_cons_of_mem _ hr))
    unfold std_find_if
    rw [hq]
    by_cases hqx : q = x
    · simp [hqx]
    · have hxq : ¬ x = q := fun e => hqx e.symm
      simp [hqx, hxq, hrest]

/-- A vector accepted by a rejection loop is absent from the select pool. -/
lemma DE_draw_ok {R : Type} [DecidableEq R] (select_pool : List (List R))
    (population : List (Solution (List R) R)) (draws : List Nat) (x : List R)
    (rest : List Nat) (h : DE_draw select_pool population draws = .ok (x, rest)) :
    x ∉ select_pool := by
  induction draws with
  | nil => exact absurd h (by simp [DE_draw])
  | cons rand_idx more ih =>
    unfold DE_draw at h
    split at h
    · exact absurd h (by simp)
    · rename_i individual _
      split at h
      · exact absurd h (by simp)
      · exact ih h
      · rename_i hfind
        injection h with h
        have hx : individual.encoding = x := congrArg Prod.fst h
        rw [← hx]
        exact std_find_if_false _ _ hfind

/-- The outcome of a defined valarray subtraction. -/
lemma valarray_sub_ok {R : Type} [Sub R] (a b c : List R)
    (h : valarray_sub a b = .ok c) :
    a.length = b.length ∧ c = List.zipWith (fun x y => x - y) a b := by
  unfold valarray_sub at h
  split at h
  · rename_i hlen
    injection h with h
    exact ⟨hlen, h.symm⟩
  · exact absurd h (by simp)

/-- The outcome of a defined valarray addition. -/
lemma valarray_add_ok {R : Type} [Add R] (a b c : List R)
    (h : valarray_add a b = .ok c) :
    a.length = b.length ∧ c = List.zipWith (fun x y => x + y) a b := by
  unfold valarray_add at h
  split at h
  · rename_i hlen
    injection h with h
    exact ⟨hlen, h.symm⟩
  · exact absurd h (by simp)

/-- The element at `j` of an elementwise sum, 0 standing for an element out of range. -/
lemma getD_zipWith_add {R : Type} [Ring R] (a b : List R) (h : a.length = b.length)
    (j : Nat) :
    (List.zipWith (fun x y => x + y) a b).getD j 0 = a.getD j 0 + b.getD j 0 := by
  induction a generalizing b j with
  | nil =>
    cases b with
    | nil => simp
    | cons y ys => exact absurd h (by simp)
  | cons x xs ih =>
    cases b with
    | nil => exact absurd h (by simp)
    | cons y ys =>
      cases j with
      | zero => simp
      | succ j => simpa using ih ys (by simpa using h) j

/-- The element at `j` of an elementwise difference, 0 standing for an element out of
range. -/
lemma getD_zipWith_sub {R : Type} [Ring R] (a b : List R) (h : a.length = b.length)
    (j : Nat) :
    (List.zipWith (fun x y => x - y) a b).getD j 0 = a.getD j 0 - b.getD j 0 := by
  induction a generalizing b j with
  | nil =>
    cases b with
    | nil => simp
    | cons y ys => exact absurd h (by simp)
  | cons x xs ih =>
    cases b with
    | nil => exact absurd h (by simp)
    | cons y ys =>
      cases j with
      | zero => simp
      | succ j => simpa using ih ys (by simpa using h) j

/-- Two vectors are pushed for every accepted pair. -/
lemma accepted_vectors_length {R : Type} (pairs : List (List R × List R)) :
    (accepted_vectors pairs).length = 2 * pairs.length := by
  induction pairs with
  | nil => rfl
  | cons p rest ih =>
    obtain ⟨v1, v2⟩ := p
    simp only [accepted_vectors, List.length_cons, ih]
    omega

/-- What a completed loop of `DE_mutation` has done: it accepted `diff_vecs` pairs, pushed
their vectors, all new and pairwise different, and added their differences to
`mutant_vec`. -/
lemma DE_mutation_loop_spec {R : Type} [DecidableEq R] [Ring R]
    (population : List (Solution (List R) R)) (diff_vecs : Nat)
    (select_pool : List (List R)) (mutant_vec : List R) (draws : List Nat)
    (mutant_vec' : List R) (select_pool' : List (List R)) (draws' : List Nat)
    (h : DE_mutation_loop population diff_vecs select_pool mutant_vec draws
      = .ok (mutant_vec', select_pool', draws')) :
    ∃ pairs : List (List R × List R), pairs.length = diff_vecs ∧
      select_pool' = select_pool ++ accepted_vectors pairs ∧
      (accepted_vectors pairs).Nodup ∧
      (∀ x ∈ accepted_vectors pairs, x ∉ select_pool) ∧
      (∀ p ∈ pairs, p.1.length = mutant_vec.length ∧ p.2.length = mutant_vec.length) ∧
      mutant_vec'.length = mutant_vec.length ∧
      ∀ j, mutant_vec'.getD j 0
        = mutant_vec.getD j 0 + (pairs.map (fun p => p.2.getD j 0 - p.1.getD j 0)).sum := by
  induction diff_vecs generalizing select_pool mutant_vec draws with
  | zero =>
    simp only [DE_mutation_loop] at h
    injection h with h
    have hm : mutant_vec = mutant_vec' := congrArg Prod.fst h
    have hp : select_pool = select_pool' := congrArg (fun t => t.2.1) h
    subst hm
    subst hp
    exact ⟨[], rfl, by simp [accepted_vectors], by simp [accepted_vectors],
      by simp [accepted_vectors], by simp, rfl, by simp⟩
  | succ n ih =>
    unfold DE_mutation_loop at h
    split at h
    · exact absurd h (by simp)
    · rename_i sol1 draws1 hd1
      dsimp only at h
      split at h
      · exact absurd h (by simp)
      · rename_i sol2 draws2 hd2
        split at h
        · exact absurd h (by simp)
        · rename_i diff hsub
          split at h
          · exact absurd h (by simp)
          · rename_i m1 hadd
            obtain ⟨pairs, hlen, hpool, hnodup, hfresh, hdims, hmlen, hsum⟩ := ih _ _ _ h
            obtain ⟨hs21, hdiff⟩ := valarray_sub_ok sol2 sol1 diff hsub
            obtain ⟨hmd, hm1⟩ := valarray_add_ok mutant_vec diff m1 hadd
            have h1 := DE_draw_ok _ _ _ _ _ hd1
            have h2 := DE_draw_ok _ _ _ _ _ hd2
            have hdlen : diff.length = sol1.length := by
              rw [hdiff, List.length_zipWith, hs21, Nat.min_self]
            have hm1len : m1.length = mutant_vec.length := by
              rw [hm1, List.length_zipWith, ← hmd, Nat.min_self]
            have h2pool : sol2 ∉ select_pool := fun hm => h2 (by simp [hm])
            have h21 : sol2 ≠ sol1 := fun he => h2 (by simp [he])
            refine ⟨(sol1, sol2) :: pairs, by simp [hlen], ?_, ?_, ?_, ?_, ?_, ?_⟩
            · rw [hpool]
              simp [accepted_vectors]
            · simp only [accepted_vectors, List.nodup_cons, List.mem_cons, not_or]
              refine ⟨⟨fun he => h21 he.symm, ?_⟩, ?_, hnodup⟩
              · intro hmem
                exact hfresh sol1 hmem (by simp)
              · intro hmem
                exact hfresh sol2 hmem (by simp)
            · intro x hx
              simp only [accepted_vectors, List.mem_cons] at hx
              rcases hx with hx | hx | hx
              · rw [hx]; exact h1
              · rw [hx]; exact h2pool
              · intro hmem
                exact hfresh x hx (by simp [hmem])
            · intro p hp
              rcases List.mem_cons.mp hp with hp | hp
              · rw [hp]
                dsimp only
                exact ⟨by omega, by omega⟩
              · have := hdims p hp
                rw [hm1len] at this
                exact this
            · rw [hmlen, hm1len]
            · intro j
              rw [hsum j, hm1, getD_zipWith_add mutant_vec diff hmd j, hdiff,
                getD_zipWith_sub sol2 sol1 hs21 j]
              simp only [List.map_cons, List.sum_cons]
              rw [add_assoc]

/-- C19: whenever `DE_mutation` completes with `diff_vecs = n`, the select pool has grown
by `2 * n` encodings that are pairwise unequal and unequal to every encoding that was in
the pool on entry. -/
theorem DE_mutation_draws_distinct {R : Type} [DecidableEq R] [Ring R]
    (select_pool : List (List R)) (population : List (Solution (List R) R))
    (scaling_factor : R) (n : Nat) (draws : List Nat) (offset : List R)
    (select_pool' : List (List R)) (draws' : List Nat)
    (h : DE_mutation select_pool population scaling_factor n draws
      = .ok (offset, select_pool', draws')) :
    ∃ added : List (List R), select_pool' = select_pool ++ added ∧
      added.length = 2 * n ∧ added.Nodup ∧ ∀ x ∈ added, x ∉ select_pool := by
  unfold DE_mutation at h
  split at h
  · exact absurd h (by simp)
  · dsimp only at h
    split at h
    · exact absurd h (by simp)
    · rename_i m pool1 draws1 hloop
      injection h with h
      have hp : pool1 = select_pool' := congrArg (fun t => t.2.1) h
      subst hp
      obtain ⟨pairs, hlen, hpool, hnodup, hfresh, _, _, _⟩ :=
        DE_mutation_loop_spec population n select_pool _ draws m pool1 draws1 hloop
      exact ⟨accepted_vectors pairs, hpool, by rw [accepted_vectors_length, hlen], hnodup,
        hfresh⟩

/-- Witness of C19: with the pool holding the vector (2) twice, one difference pair and the
draws 1 and 2 from the population (2), (1), (3), (4), `DE_mutation` completes and pushes
(1) and (3). -/
theorem DE_mutation_draws_distinct_witness :
    DE_mutation [[2], [2]]
        [(⟨[2], 2⟩ : Solution (List Int) Int), ⟨[1], 1⟩, ⟨[3], 3⟩, ⟨[4], 4⟩] 1 1 [1, 2]
        = .ok ([2], [[2], [2], [1], [3]], []) ∧
      ∃ added : List (List Int), [[2], [2], [1], [3]] = [[2], [2]] ++ added ∧
        added.length = 2 * 1 ∧ added.Nodup ∧ ∀ x ∈ added, x ∉ [[(2 : Int)], [2]] :=
  ⟨rfl, DE_mutation_draws_distinct [[2], [2]]
    [(⟨[2], 2⟩ : Solution (List Int) Int), ⟨[1], 1⟩, ⟨[3], 3⟩, ⟨[4], 4⟩] 1 1 [1, 2]
    [2] [[2], [2], [1], [3]] [] rfl⟩

/-- The function `DE_mate` is `DE_mate_mutant` with the mutant replaced by the target. -/
lemma DE_mate_eq_mutant {R : Type} [DecidableEq R] [Ring R] (target_vec : List R)
    (population : List (Solution (List R) R)) (de : DifferentialEvolution R)
    (draws : List Nat) :
    DE_mate target_vec population de draws
      = (DE_mate_mutant target_vec population de draws).map
          (fun r => (target_vec, r.2.2)) := by
  unfold DE_mate DE_mate_mutant
  dsimp only
  split
  · rfl
  · split
    · rfl
    · split
      · rfl
      · rfl

/-- C20: when `DE_mutation` completes, its result has the dimension of the target (the
front of the select pool) and at every index equals `scaling_factor` times the sum over
the accepted pairs `(v1, v2)` of `v2 - v1` at that index; with no difference vectors the
result is the zero vector of that dimension; and the mutant that `DE_mate` forms is the
base (the encoding that `DE_mate_select` yields) plus this offset, elementwise. -/
theorem DE_mutation_offset_formula {R : Type} [DecidableEq R] [Ring R]
    (population : List (Solution (List R) R)) (draws : List Nat) :
    (∀ (select_pool : List (List R)) (scaling_factor : R) (n : Nat) offset select_pool'
        draws',
        DE_mutation select_pool population scaling_factor n draws
          = .ok (offset, select_pool', draws') →
        ∃ target pairs, select_pool.head? = some target ∧ pairs.length = n ∧
          select_pool' = select_pool ++ accepted_vectors pairs ∧
          (∀ p ∈ pairs, p.1.length = target.length ∧ p.2.length = target.length) ∧
          offset.length = target.length ∧
          ∀ j, j < target.length →
            offset.get? j = some (scaling_factor *
              (pairs.map (fun p => p.2.getD j 0 - p.1.getD j 0)).sum)) ∧
      (∀ (select_pool : List (List R)) (scaling_factor : R) target,
        select_pool.head? = some target →
        DE_mutation select_pool population scaling_factor 0 draws
          = .ok (List.replicate target.length 0, select_pool, draws)) ∧
      (∀ (target_vec : List R) (de : DifferentialEvolution R) mutant_vec select_pool'
          draws',
        DE_mate_mutant target_vec population de draws
          = .ok (mutant_vec, select_pool', draws') →
        ∃ base offset, deref population (std_min 0 population.length) = some base ∧
          DE_mutation [target_vec, base.encoding] population de.scaling_factor
            de.num_of_diff_vectors draws = .ok (offset, select_pool', draws') ∧
          base.encoding.length = offset.length ∧
          mutant_vec = List.zipWith (fun x y => x + y) base.encoding offset) ∧
      (∀ (target_vec : List R) (de : DifferentialEvolution R),
        DE_mate target_vec population de draws
          = (DE_mate_mutant target_vec population de draws).map
              (fun r => (target_vec, r.2.2))) := by
  refine ⟨?_, ?_, ?_, fun target_vec de => DE_mate_eq_mutant target_vec population de draws⟩
  · intro select_pool scaling_factor n offset select_pool' draws' h
    unfold DE_mutation at h
    split at h
    · exact absurd h (by simp)
    · rename_i sol1 hhead
      dsimp only at h
      split at h
      · exact absurd h (by simp)
      · rename_i m pool1 draws1 hloop
        injection h with h
        have ho : valarray_scale scaling_factor m = offset := congrArg Prod.fst h
        have hp : pool1 = select_pool' := congrArg (fun t => t.2.1) h
        subst hp
        subst ho
        obtain ⟨pairs, hlen, hpool, _, _, hdims, hmlen, hsum⟩ :=
          DE_mutation_loop_spec population n select_pool _ draws m pool1 draws1 hloop
        rw [List.length_replicate] at hmlen
        refine ⟨sol1, pairs, hhead, hlen, hpool, ?_, ?_, ?_⟩
        · intro p hp
          have := hdims p hp
          rw [List.length_replicate] at this
          exact this
        · simp [valarray_scale, hmlen]
        · intro j hj
          have hjm : j < m.length := hmlen ▸ hj
          have hget : m.get? j = some (m.getD j 0) := by
            simp [List.getD, List.get?_eq_getElem?, List.getElem?_eq_getElem hjm]
          have hzero : (List.replicate sol1.length (0 : R)).getD j 0 = 0 := by
            simp [List.getD, List.getElem?_replicate, hj]
          rw [List.get?_eq_getElem?] at hget
          simp only [valarray_scale, List.get?_eq_getElem?, List.getElem?_map, hget,
            Option.map_some', hsum j, hzero, zero_add]
  · intro select_pool scaling_factor target hhead
    simp [DE_mutation, hhead, DE_mutation_loop, valarray_scale]
  · intro target_vec de mutant_vec select_pool' draws' h
    unfold DE_mate_mutant at h
    dsimp only at h
    split at h
    · exact absurd h (by simp)
    · rename_i base_vec pool0 hsel
      split at h
      · exact absurd h (by simp)
      · rename_i offset pool1 draws1 hmut
        split at h
        · exact absurd h (by simp)
        · rename_i mutant hadd
          injection h with h
          have hm : mutant = mutant_vec := congrArg Prod.fst h
          have hp : pool1 = select_pool' := congrArg (fun t => t.2.1) h
          have hd : draws1 = draws' := congrArg (fun t => t.2.2) h
          subst hm
          subst hp
          subst hd
          unfold DE_mate_select at hsel
          split at hsel
          · exact absurd hsel (by simp)
          · rename_i best hbest
            injection hsel with hsel
            have hb : best.encoding = base_vec := congrArg Prod.fst hsel
            have hp0 : [target_vec] ++ [best.encoding] = pool0 := congrArg Prod.snd hsel
            subst hb
            subst hp0
            obtain ⟨hlen, hsum⟩ := valarray_add_ok _ _ _ hadd
            exact ⟨best, offset, hbest, hmut, hlen, hsum⟩

/-- Witness of C20: with the target (2), the base (2), scaling factor 2 and the accepted
pair (1), (3), the offset is 2 * (3 - 1) = 4. -/
theorem DE_mutation_offset_formula_witness :
    DE_mutation [[2], [2]]
        [(⟨[2], 2⟩ : Solution (List Int) Int), ⟨[1], 1⟩, ⟨[3], 3⟩, ⟨[4], 4⟩] 2 1 [1, 2]
        = .ok ([4], [[2], [2], [1], [3]], []) ∧
      ∃ target pairs, [[(2 : Int)], [2]].head? = some target ∧ pairs.length = 1 ∧
        [[2], [2], [1], [3]] = [[2], [2]] ++ accepted_vectors pairs ∧
        ∀ j, j < target.length →
          [(4 : Int)].get? j = some (2 *
            (pairs.map (fun p => p.2.getD j 0 - p.1.getD j 0)).sum) := by
  obtain ⟨target, pairs, hhead, hlen, hpool, _, _, hsum⟩ :=
    (DE_mutation_offset_formula
      [(⟨[2], 2⟩ : Solution (List Int) Int), ⟨[1], 1⟩, ⟨[3], 3⟩, ⟨[4], 4⟩] [1, 2]).1
      [[2], [2]] 2 1 [4] [[2], [2], [1], [3]] [] rfl
  exact ⟨rfl, target, pairs, hhead, hlen, hpool, hsum⟩

/-- A draw of an individual whose encoding has the pool's dimension and is absent from the
pool ends the rejection loop at once. -/
lemma DE_draw_accept {R : Type} [DecidableEq R] (select_pool : List (List R))
    (population : List (Solution (List R) R)) (rand_idx : Nat) (rest : List Nat)
    (individual : Solution (List R) R) (hget : population.get? rand_idx = some individual)
    (hdim : ∀ q ∈ select_pool, q.length = individual.encoding.length)
    (hfresh : individual.encoding ∉ select_pool) :
    DE_draw select_pool population (rand_idx :: rest) = .ok (individual.encoding, rest) := by
  unfold DE_draw
  rw [hget]
  dsimp only
  rw [std_find_if_of_length_eq _ _ hdim]
  simp [hfresh]

/-- With draws that point at fresh, pairwise different encodings of one dimension, the loop
of `DE_mutation` completes and uses exactly these draws. -/
lemma DE_mutation_loop_complete {R : Type} [DecidableEq R] [Ring R]
    (population : List (Solution (List R) R)) (d : Nat)
    (hpop : ∀ p ∈ population, p.encoding.length = d) (n : Nat)
    (select_pool : List (List R)) (mutant_vec : List R) (picks rest : List Nat)
    (hlen : picks.length = 2 * n) (hpool : ∀ q ∈ select_pool, q.length = d)
    (hm : mutant_vec.length = d) (hidx : ∀ i ∈ picks, i < population.length)
    (hnodup : (picks.map (fun i => (population.get? i).map (fun p => p.encoding))).Nodup)
    (hfresh : ∀ i ∈ picks, ∀ q ∈ select_pool,
      (population.get? i).map (fun p => p.encoding) ≠ some q) :
    ∃ mutant_vec' select_pool',
      DE_mutation_loop population n select_pool mutant_vec (picks ++ rest)
        = .ok (mutant_vec', select_pool', rest) ∧ mutant_vec'.length = d := by
  induction n generalizing select_pool mutant_vec picks with
  | zero =>
    have hnil : picks = [] := List.length_eq_zero.mp (by simpa using hlen)
    subst hnil
    exact ⟨mutant_vec, select_pool, rfl, hm⟩
  | succ n ih =>
    match picks, hlen with
    | i1 :: i2 :: picks', hlen' =>
      have hlen2 : picks'.length = 2 * n := by
        simp only [List.length_cons] at hlen'
        omega
      have hi1 : i1 < population.length := hidx i1 (by simp)
      have hi2 : i2 < population.length := hidx i2 (by simp)
      obtain ⟨p1, hp1⟩ : ∃ p1, population.get? i1 = some p1 :=
        ⟨_, List.get?_eq_get hi1⟩
      obtain ⟨p2, hp2⟩ : ∃ p2, population.get? i2 = some p2 :=
        ⟨_, List.get?_eq_get hi2⟩
      have hd1 : p1.encoding.length = d := hpop p1 (List.get?_mem hp1)
      have hd2 : p2.encoding.length = d := hpop p2 (List.get?_mem hp2)
      simp only [List.map_cons, List.nodup_cons, List.mem_cons, not_or, hp1, hp2,
        Option.map_some'] at hnodup
      obtain ⟨⟨h12, h1rest⟩, h2rest, hnodup'⟩ := hnodup
      have hf1 : p1.encoding ∉ select_pool := by
        intro hmem
        have := hfresh i1 (by simp) _ hmem
        rw [hp1] at this
        exact this rfl
      have hf2 : p2.encoding ∉ select_pool ++ [p1.encoding] := by
        intro hmem
        rcases List.mem_append.mp hmem with hmem | hmem
        · have := hfresh i2 (by simp) _ hmem
          rw [hp2] at this
          exact this rfl
        · have he : p2.encoding = p1.encoding := by simpa using hmem
          exact h12 (by rw [he])
      have hdraw1 := DE_draw_accept select_pool population i1 (i2 :: picks' ++ rest) p1 hp1
        (fun q hq => (hpool q hq).trans hd1.symm) hf1
      have hdraw2 := DE_draw_accept (select_pool ++ [p1.encoding]) population i2
        (picks' ++ rest) p2 hp2
        (fun q hq => by
          rcases List.mem_append.mp hq with hq | hq
          · exact (hpool q hq).trans hd2.symm
          · have he : q = p1.encoding := by simpa using hq
            rw [he, hd1, hd2])
        hf2
      have hsub : valarray_sub p2.encoding p1.encoding
          = .ok (List.zipWith (fun x y => x - y) p2.encoding p1.encoding) := by
        simp [valarray_sub, hd1, hd2]
      have hdiff : (List.zipWith (fun x y => x - y) p2.encoding p1.encoding).length = d := by
        simp [hd1, hd2]
      have hadd : valarray_add mutant_vec
          (List.zipWith (fun x y => x - y) p2.encoding p1.encoding)
          = .ok (List.zipWith (fun x y => x + y) mutant_vec
              (List.zipWith (fun x y => x - y) p2.encoding p1.encoding)) := by
        unfold valarray_add
        rw [if_pos (by rw [hm, hdiff])]
      obtain ⟨m', pool', hloop, hm'⟩ := ih (select_pool ++ [p1.encoding] ++ [p2.encoding])
        (List.zipWith (fun x y => x + y) mutant_vec
          (List.zipWith (fun x y => x - y) p2.encoding p1.encoding))
        picks' hlen2
        (fun q hq => by
          rcases List.mem_append.mp hq with hq | hq
          · rcases List.mem_append.mp hq with hq | hq
            · exact hpool q hq
            · have he : q = p1.encoding := by simpa using hq
              rw [he, hd1]
          · have he : q = p2.encoding := by simpa using hq
            rw [he, hd2])
        (by rw [List.length_zipWith, hm, hdiff, Nat.min_self])
        (fun i hi => hidx i (by simp [hi]))
        hnodup'
        (fun i hi q hq => by
          rcases List.mem_append.mp hq with hq | hq
          · rcases List.mem_append.mp hq with hq | hq
            · exact hfresh i (by simp [hi]) q hq
            · have he : q = p1.encoding := by simpa using hq
              intro hcon
              exact h1rest (by
                rw [he] at hcon
                rw [← hcon]
                exact List.mem_map_of_mem _ hi)
          · have he : q = p2.encoding := by simpa using hq
            intro hcon
            exact h2rest (by
              rw [he] at hcon
              rw [← hcon]
              exact List.mem_map_of_mem _ hi))
      refine ⟨m', pool', ?_, hm'⟩
      have hcons : i1 :: i2 :: picks' ++ rest = i1 :: (i2 :: picks' ++ rest) := rfl
      rw [hcons]
      unfold DE_mutation_loop
      rw [hdraw1]
      dsimp only
      have hcons2 : i2 :: picks' ++ rest = i2 :: (picks' ++ rest) := rfl
      rw [hcons2, hdraw2]
      dsimp only
      rw [hsub]
      dsimp only
      rw [hadd]
      exact hloop

/-- C18: a completed call of `DE_mate` returns the target vector it was given; and the call
completes, using exactly the draws `picks`, whenever all encodings of the population have
the target's dimension and the `2 * num_of_diff_vectors` draws `picks` point at pairwise
different encodings that differ from the target and from the base. -/
theorem DE_mate_returns_target {R : Type} [DecidableEq R] [Ring R] (target_vec : List R)
    (population : List (Solution (List R) R)) (de : DifferentialEvolution R) :
    (∀ draws v draws', DE_mate target_vec population de draws = .ok (v, draws') →
        v = target_vec) ∧
      (∀ (base : Solution (List R) R) (picks rest : List Nat),
        population.head? = some base →
        (∀ p ∈ population, p.encoding.length = target_vec.length) →
        picks.length = 2 * de.num_of_diff_vectors →
        (∀ i ∈ picks, i < population.length) →
        (picks.map (fun i => (population.get? i).map (fun p => p.encoding))).Nodup →
        (∀ i ∈ picks, ∀ q ∈ [target_vec, base.encoding],
          (population.get? i).map (fun p => p.encoding) ≠ some q) →
        DE_mate target_vec population de (picks ++ rest) = .ok (target_vec, rest)) := by
  refine ⟨fun draws v draws' h => DE_mate_ok target_vec population de draws v draws' h, ?_⟩
  intro base picks rest hhead hpop hlen hidx hnodup hfresh
  have hbase_mem : base ∈ population := List.mem_of_mem_head? hhead
  have hderef : deref population (std_min 0 population.length) = some base := by
    cases population with
    | nil => exact absurd hhead (by simp)
    | cons b tl =>
      have hb : b = base := by simpa using hhead
      simp [deref, std_min, hb]
  obtain ⟨m', pool', hloop, hm'⟩ := DE_mutation_loop_complete population target_vec.length
    hpop de.num_of_diff_vectors [target_vec, base.encoding]
    (List.replicate target_vec.length 0) picks rest hlen
    (fun q hq => by
      rcases List.mem_cons.mp hq with hq | hq
      · rw [hq]
      · have he : q = base.encoding := by simpa using hq
        rw [he]
        exact hpop base hbase_mem)
    (by simp) hidx hnodup hfresh
  have hmut : DE_mutation [target_vec, base.encoding] population de.scaling_factor
      de.num_of_diff_vectors (picks ++ rest)
      = .ok (valarray_scale de.scaling_factor m', pool', rest) := by
    unfold DE_mutation
    simp only [List.head?_cons]
    rw [hloop]
  have hadd : valarray_add base.encoding (valarray_scale de.scaling_factor m')
      = .ok (List.zipWith (fun x y => x + y) base.encoding
          (valarray_scale de.scaling_factor m')) := by
    unfold valarray_add
    rw [if_pos (by simp [valarray_scale, hm', hpop base hbase_mem])]
  unfold DE_mate
  dsimp only
  unfold DE_mate_select
  rw [hderef]
  dsimp only
  have hpool0 : [target_vec] ++ [base.encoding] = [target_vec, base.encoding] := rfl
  rw [hpool0, hmut]
  dsimp only
  rw [hadd]

/-- Witness of C18: for the target (1) in the population (2), (1), (3), (4) with one
difference pair, the draws 2 and 3 point at (3) and (4), and `DE_mate` returns the target
(1) having used both draws. -/
theorem DE_mate_returns_target_witness :
    DE_mate [1] [(⟨[2], 2⟩ : Solution (List Int) Int), ⟨[1], 1⟩, ⟨[3], 3⟩, ⟨[4], 4⟩]
        ⟨0, 0, 1, 1⟩ ([2, 3] ++ [0, 1]) = .ok ([1], [0, 1]) :=
  (DE_mate_returns_target [1]
    [(⟨[2], 2⟩ : Solution (List Int) Int), ⟨[1], 1⟩, ⟨[3], 3⟩, ⟨[4], 4⟩] ⟨0, 0, 1, 1⟩).2
    ⟨[2], 2⟩ [2, 3] [0, 1] rfl (by decide) rfl (by decide) (by decide) (by decide)

/-! A generation of differential evolution as a whole -/

/-- On a population whose scores are the evaluations of its encodings, one index of
`generate` changes nothing. -/
lemma generate_at_noop {Inf R : Type} [LinearOrderedRing R]
    (inst : Evolutionary.Instance (List R) Inf R) (de : DifferentialEvolution R) (i : Nat)
    (population : List (Solution (List R) R)) (draws : List Nat)
    (population' : List (Solution (List R) R)) (draws' : List Nat)
    (hpop : ∀ p ∈ population, p.score = inst.evaluate p.encoding inst.inf)
    (h : generate_at inst de i population draws = .ok (population', draws')) :
    population' = population := by
  unfold generate_at at h
  split at h
  · exact absurd h (by simp)
  · rename_i individual hget
    dsimp only at h
    split at h
    · exact absurd h (by simp)
    · rename_i trial_vec draws1 hmate
      have htrial := DE_mate_ok _ _ _ _ _ _ hmate
      subst htrial
      have hscore := hpop individual (List.get?_mem hget)
      rw [if_neg (by rw [← hscore]; exact lt_irrefl _)] at h
      injection h with h
      exact (congrArg Prod.fst h).symm

/-- On such a population the loop of `generate` changes nothing. -/
lemma generate_loop_noop {Inf R : Type} [LinearOrderedRing R]
    (inst : Evolutionary.Instance (List R) Inf R) (de : DifferentialEvolution R)
    (remaining i : Nat) (population : List (Solution (List R) R)) (draws : List Nat)
    (population' : List (Solution (List R) R)) (draws' : List Nat)
    (hpop : ∀ p ∈ population, p.score = inst.evaluate p.encoding inst.inf)
    (h : generate_loop inst de remaining i population draws = .ok (population', draws')) :
    population' = population := by
  induction remaining generalizing i draws with
  | zero =>
    simp only [generate_loop] at h
    injection h with h
    exact (congrArg Prod.fst h).symm
  | succ remaining ih =>
    simp only [generate_loop] at h
    split at h
    · exact absurd h (by simp)
    · rename_i pop1 draws1 hat
      have h1 := generate_at_noop inst de i population draws pop1 draws1 hpop hat
      subst h1
      exact ih (i + 1) draws1 h

/-- On such a population any number of calls of `generate` changes nothing. -/
lemma evolution_loop_noop {Inf R : Type} [LinearOrderedRing R]
    (inst : Evolutionary.Instance (List R) Inf R) (de : DifferentialEvolution R)
    (generations : Nat) (population : List (Solution (List R) R)) (draws : List Nat)
    (population' : List (Solution (List R) R)) (draws' : List Nat)
    (hpop : ∀ p ∈ population, p.score = inst.evaluate p.encoding inst.inf)
    (h : evolution_loop inst de generations population draws = .ok (population', draws')) :
    population' = population := by
  induction generations generalizing draws with
  | zero =>
    simp only [evolution_loop] at h
    injection h with h
    exact (congrArg Prod.fst h).symm
  | succ generations ih =>
    simp only [evolution_loop] at h
    split at h
    · exact absurd h (by simp)
    · rename_i pop1 draws1 hgen
      have h1 := generate_loop_noop inst de _ 0 population draws pop1 draws1 hpop hgen
      subst h1
      exact ih draws1 h

/-- C23: on a population whose scores are the evaluations of its encodings, a completed
call of `generate` leaves the population identical, encodings and scores; and whatever
`evolution` returns for a `generation_limit` on which it completes, it returns for
`generation_limit = 0` as well, on any draws. -/
theorem generate_is_noop {Inf R : Type} [LinearOrderedRing R]
    (inst : Evolutionary.Instance (List R) Inf R) (de : DifferentialEvolution R) :
    (∀ population draws population' draws',
        (∀ p ∈ population, p.score = inst.evaluate p.encoding inst.inf) →
        generate inst population de draws = .ok (population', draws') →
        population' = population) ∧
      (∀ init draws result, evolution inst de init draws = .ok result →
        ∀ draws0, evolution { inst with generation_limit := 0 } de init draws0
          = .ok result) := by
  constructor
  · intro population draws population' draws' hpop h
    exact generate_loop_noop inst de _ 0 population draws population' draws' hpop h
  · intro init draws result h draws0
    unfold evolution at h
    split at h
    · exact absurd h (by simp)
    · rename_i population draws' hfinal
      have hpop : population = initialize_popultion inst init :=
        evolution_loop_noop inst de _ _ draws population draws'
          (fun p hp => by
            obtain ⟨e, _, he⟩ := List.mem_map.mp hp
            rw [← he])
          hfinal
      subst hpop
      split at h
      · exact absurd h (by simp)
      · rename_i min hmin
        have hmin' : deref (initialize_popultion { inst with generation_limit := 0 } init)
            (std_min 0
              (initialize_popultion { inst with generation_limit := 0 } init).length)
            = some min := hmin
        simp only [evolution, final_population, evolution_loop, hmin']
        exact h

/-- Witness of C23: on the population (2), (1), (3), (4) scored by the sum of coordinates,
one call of `generate` with one difference pair completes and leaves the population as it
was. -/
theorem generate_is_noop_witness :
    generate (sum_instance 1) [⟨[2], 2⟩, ⟨[1], 1⟩, ⟨[3], 3⟩, ⟨[4], 4⟩] ⟨0, 0, 1, 1⟩
        [1, 1, 2, 3, 3, 2, 0, 1, 2, 3, 1, 2, 3, 0, 1, 2, 3, 0]
        = .ok ([⟨[2], 2⟩, ⟨[1], 1⟩, ⟨[3], 3⟩, ⟨[4], 4⟩], [3, 0, 1, 2, 3, 0]) ∧
      (∀ p ∈ [(⟨[2], 2⟩ : Solution (List Int) Int), ⟨[1], 1⟩, ⟨[3], 3⟩, ⟨[4], 4⟩],
        p.score = (sum_instance 1).evaluate p.encoding (sum_instance 1).inf) ∧
      [(⟨[2], 2⟩ : Solution (List Int) Int), ⟨[1], 1⟩, ⟨[3], 3⟩, ⟨[4], 4⟩]
        = [⟨[2], 2⟩, ⟨[1], 1⟩, ⟨[3], 3⟩, ⟨[4], 4⟩] :=
  ⟨rfl, by decide,
    (generate_is_noop (sum_instance 1) ⟨0, 0, 1, 1⟩).1
      [⟨[2], 2⟩, ⟨[1], 1⟩, ⟨[3], 3⟩, ⟨[4], 4⟩]
      [1, 1, 2, 3, 3, 2, 0, 1, 2, 3, 1, 2, 3, 0, 1, 2, 3, 0]
      [⟨[2], 2⟩, ⟨[1], 1⟩, ⟨[3], 3⟩, ⟨[4], 4⟩] [3, 0, 1, 2, 3, 0] (by decide) rfl⟩

/-! The tabu scan and the tabu queue -/

/-- One neighbor of the tabu scan: it replaces `min` exactly when its trait is absent from
the queue and it is strictly less than `min`. -/
lemma TS_scan_cons {Encoding Inf Trait R : Type} [LinearOrder R] [DecidableEq Trait]
    (inf : Inf) (ts : TS Encoding Inf Trait) (x : Solution Encoding R)
    (xs : List (Solution Encoding R)) (start : Solution Encoding R) :
    TS_scan inf ts (x :: xs) start
      = TS_scan inf ts xs
          (if ts.trait x.encoding inf ∉ ts.queue ∧ x.score < start.score then x
            else start) := by
  by_cases hadm : ts.trait x.encoding inf ∈ ts.queue <;>
    by_cases hlt : x.score < start.score <;>
    simp [TS_scan, Solution.lt, hadm, hlt]

/-- What the tabu scan ends on: its starting solution when no neighbor with a trait absent
from the queue is strictly less than it, and otherwise the earliest such neighbor of least
score. -/
lemma TS_scan_spec {Encoding Inf Trait R : Type} [LinearOrder R] [DecidableEq Trait]
    (inf : Inf) (ts : TS Encoding Inf Trait) (neighbors : List (Solution Encoding R))
    (start : Solution Encoding R) :
    (TS_scan inf ts neighbors start = start ∧
        ∀ y ∈ neighbors, ts.trait y.encoding inf ∉ ts.queue → ¬ y.score < start.score) ∨
      ∃ pre post, neighbors = pre ++ TS_scan inf ts neighbors start :: post ∧
        ts.trait (TS_scan inf ts neighbors start).encoding inf ∉ ts.queue ∧
        (TS_scan inf ts neighbors start).score < start.score ∧
        (∀ y ∈ pre, ts.trait y.encoding inf ∉ ts.queue →
          (TS_scan inf ts neighbors start).score < y.score) ∧
        (∀ y ∈ post, ts.trait y.encoding inf ∉ ts.queue →
          (TS_scan inf ts neighbors start).score ≤ y.score) := by
  induction neighbors generalizing start with
  | nil => exact Or.inl ⟨rfl, by simp⟩
  | cons x xs ih =>
    rw [TS_scan_cons]
    by_cases hx : ts.trait x.encoding inf ∉ ts.queue ∧ x.score < start.score
    · rw [if_pos hx]
      rcases ih x with ⟨hres, hnone⟩ | ⟨pre, post, hsplit, hadm, hlt, hpre, hpost⟩
      · right
        refine ⟨[], xs, by rw [hres]; rfl, by rw [hres]; exact hx.1,
          by rw [hres]; exact hx.2, by simp, ?_⟩
        intro y hy hyadm
        rw [hres]
        exact not_lt.mp (hnone y hy hyadm)
      · right
        refine ⟨x :: pre, post, by rw [List.cons_append, ← hsplit], hadm,
          lt_trans hlt hx.2, ?_, hpost⟩
        intro y hy hyadm
        rcases List.mem_cons.mp hy with hyx | hy
        · rw [hyx]
          exact hlt
        · exact hpre y hy hyadm
    · rw [if_neg hx]
      rcases ih start with ⟨hres, hnone⟩ | ⟨pre, post, hsplit, hadm, hlt, hpre, hpost⟩
      · left
        refine ⟨hres, ?_⟩
        intro y hy hyadm
        rcases List.mem_cons.mp hy with hyx | hy
        · rw [hyx] at hyadm ⊢
          exact fun hlt => hx ⟨hyadm, hlt⟩
        · exact hnone y hy hyadm
      · right
        refine ⟨x :: pre, post, by rw [List.cons_append, ← hsplit], hadm, hlt, ?_, hpost⟩
        intro y hy hyadm
        rcases List.mem_cons.mp hy with hyx | hy
        · rw [hyx] at hyadm ⊢
          have hge : start.score ≤ x.score := not_lt.mp (fun h => hx ⟨hyadm, h⟩)
          exact lt_of_lt_of_le hlt hge
        · exact hpre y hy hyadm

/-- The candidates of a list that splits at a candidate. -/
lemma tabu_candidates_split {Encoding Inf Trait R : Type} [LinearOrder R]
    [DecidableEq Trait] (inf : Inf) (ts : TS Encoding Inf Trait)
    (neighbors pre post : List (Solution Encoding R)) (r front : Solution Encoding R)
    (hsplit : neighbors = pre ++ r :: post) (hadm : ts.trait r.encoding inf ∉ ts.queue)
    (hlt : r.score < front.score) :
    tabu_candidates inf ts neighbors front
      = tabu_candidates inf ts pre front ++ r :: tabu_candidates inf ts post front := by
  subst hsplit
  have hkeep : (decide (ts.trait r.encoding inf ∉ ts.queue) &&
      decide (r.score < front.score)) = true := by
    simp only [Bool.and_eq_true, decide_eq_true_eq]
    exact ⟨hadm, hlt⟩
  unfold tabu_candidates
  rw [List.filter_append]
  congr 1
  exact List.filter_cons_of_pos hkeep

/-- A candidate is a neighbor whose trait is absent from the queue. -/
lemma tabu_candidates_mem {Encoding Inf Trait R : Type} [LinearOrder R]
    [DecidableEq Trait] (inf : Inf) (ts : TS Encoding Inf Trait)
    (neighbors : List (Solution Encoding R)) (front x : Solution Encoding R)
    (hx : x ∈ tabu_candidates inf ts neighbors front) :
    x ∈ neighbors ∧ ts.trait x.encoding inf ∉ ts.queue := by
  have := List.mem_filter.mp hx
  simp only [Bool.and_eq_true, decide_eq_true_eq] at this
  exact ⟨this.1, this.2.1⟩

/-- C24 as stated fails for the empty queue: over the neighbors of scores 1 and 4 the scan
ends on the first neighbor and no neighbor is a candidate, but the step then pops the
empty queue and has no defined result. -/
theorem select_with_TS_empty_queue_undefined :
    TS_scan () (⟨0, fun e _ => e, []⟩ : TS Int Unit Int)
        [(⟨1, 1⟩ : Solution Int Int), ⟨2, 4⟩] ⟨1, 1⟩ = ⟨1, 1⟩ ∧
      tabu_candidates () (⟨0, fun e _ => e, []⟩ : TS Int Unit Int)
        [(⟨1, 1⟩ : Solution Int Int), ⟨2, 4⟩] ⟨1, 1⟩ = [] ∧
      (select_with_TS (square_instance 1) ⟨0, 0⟩ [⟨1, 1⟩, ⟨2, 4⟩]
        (⟨0, fun e _ => e, []⟩ : TS Int Unit Int)).isNone = true := by
  decide

/-- C24 amended: for every non-empty queue and every neighbor list `n_0 :: rest`, with `S`
the neighbors whose trait is absent from the queue and whose score is strictly less than
that of `n_0`: the step is defined, its result is `n_0` when `S` is empty and otherwise the
element of `S` that is strictly less than all elements of `S` before it and at most all
elements after it; the new queue is the old one without its oldest entry, followed by the
trait of the result. -/
theorem select_with_TS_characterised {Encoding Inf Trait R : Type} [LinearOrder R]
    [DecidableEq Trait] (inst : Trajectory.Instance Encoding Inf R)
    (current n_0 : Solution Encoding R) (rest : List (Solution Encoding R))
    (ts : TS Encoding Inf Trait) (hq : ts.queue ≠ []) :
    ∃ result ts', select_with_TS inst current (n_0 :: rest) ts = some (result, ts') ∧
      ts'.queue = ts.queue.tail ++ [ts.trait result.encoding inst.inf] ∧
      ((tabu_candidates inst.inf ts (n_0 :: rest) n_0 = [] ∧ result = n_0) ∨
        ∃ pre post, tabu_candidates inst.inf ts (n_0 :: rest) n_0 = pre ++ result :: post ∧
          (∀ x ∈ pre, result.score < x.score) ∧ (∀ x ∈ post, result.score ≤ x.score)) := by
  obtain ⟨length, trait, queue⟩ := ts
  cases queue with
  | nil => exact absurd rfl hq
  | cons oldest popped =>
    refine ⟨TS_scan inst.inf ⟨length, trait, oldest :: popped⟩ (n_0 :: rest) n_0, _, rfl, rfl,
      ?_⟩
    rcases TS_scan_spec inst.inf ⟨length, trait, oldest :: popped⟩ (n_0 :: rest) n_0 with
      ⟨hres, hnone⟩ | ⟨pre, post, hsplit, hadm, hlt, hpre, hpost⟩
    · left
      refine ⟨?_, hres⟩
      simp only [tabu_candidates, List.filter_eq_nil_iff, Bool.and_eq_true,
        decide_eq_true_eq, not_and]
      exact fun y hy hyadm => hnone y hy hyadm
    · right
      refine ⟨tabu_candidates inst.inf ⟨length, trait, oldest :: popped⟩ pre n_0,
        tabu_candidates inst.inf ⟨length, trait, oldest :: popped⟩ post n_0,
        tabu_candidates_split _ _ _ _ _ _ _ hsplit hadm hlt, ?_, ?_⟩
      · intro x hx
        obtain ⟨hmem, hxadm⟩ := tabu_candidates_mem _ _ _ _ _ hx
        exact hpre x hmem hxadm
      · intro x hx
        obtain ⟨hmem, hxadm⟩ := tabu_candidates_mem _ _ _ _ _ hx
        exact hpost x hmem hxadm

/-- Witness of C24 amended: the queue holds trait 0; the neighbors are 0 (score 5, its
trait in the queue), 1 (score 3), 2 (score 1) and 3 (score 1). The candidates are 1, 2
and 3, the step returns the earlier of the two of least score, 2, and the queue then
holds trait 2. -/
theorem select_with_TS_characterised_witness :
    ((⟨1, fun e _ => e, [0]⟩ : TS Int Unit Int).queue ≠ []) ∧
      (select_with_TS (square_instance 1) ⟨7, 7⟩ [⟨0, 5⟩, ⟨1, 3⟩, ⟨2, 1⟩, ⟨3, 1⟩]
        (⟨1, fun e _ => e, [0]⟩ : TS Int Unit Int)).map (fun r => (r.1, r.2.queue))
        = some (⟨2, 1⟩, [2]) ∧
      ∃ result ts', select_with_TS (square_instance 1) ⟨7, 7⟩
          [⟨0, 5⟩, ⟨1, 3⟩, ⟨2, 1⟩, ⟨3, 1⟩] (⟨1, fun e _ => e, [0]⟩ : TS Int Unit Int)
          = some (result, ts') ∧
        ts'.queue = [] ++ [result.encoding] := by
  obtain ⟨result, ts', hsel, hqueue, _⟩ := select_with_TS_characterised (square_instance 1)
    ⟨7, 7⟩ ⟨0, 5⟩ [⟨1, 3⟩, ⟨2, 1⟩, ⟨3, 1⟩] (⟨1, fun e _ => e, [0]⟩ : TS Int Unit Int)
    (by simp)
  exact ⟨by simp, by decide, result, ts', hsel, hqueue⟩

/-- The queue that `initialize` builds is `length` copies of the initial trait. -/
lemma initialize_TS_queue {Encoding Inf Trait R : Type} [Inhabited Trait]
    (inst : Trajectory.Instance Encoding Inf R) (ts : TS Encoding Inf Trait)
    (init : Encoding) (h : 0 ≤ ts.length) :
    initialize_TS inst ts init
      = some { ts with
          queue := List.replicate ts.length.toNat (ts.trait init inst.inf) } := by
  have hq : std_fill (deque_resize ts.queue ts.length.toNat) (ts.trait init inst.inf)
      = List.replicate ts.length.toNat (ts.trait init inst.inf) := by
    rw [List.eq_replicate_iff]
    constructor
    · simp only [std_fill, deque_resize, List.length_map, List.length_append,
        List.length_take, List.length_replicate]
      omega
    · intro b hb
      simp only [std_fill, List.mem_map] at hb
      obtain ⟨_, _, hb⟩ := hb
      exact hb.symm
  simp only [initialize_TS, if_pos h, hq]

/-- What a defined tabu step does to the struct: the oldest trait leaves the queue and the
trait of the result is appended. -/
lemma select_with_TS_queue {Encoding Inf Trait R : Type} [LinearOrder R]
    [DecidableEq Trait] (inst : Trajectory.Instance Encoding Inf R)
    (current : Solution Encoding R) (neighbors : List (Solution Encoding R))
    (ts ts' : TS Encoding Inf Trait) (result : Solution Encoding R)
    (h : select_with_TS inst current neighbors ts = some (result, ts')) :
    ts'.trait = ts.trait ∧ ts.queue ≠ [] ∧
      ts'.queue = ts.queue.tail ++ [ts.trait result.encoding inst.inf] := by
  unfold select_with_TS at h
  split at h
  · exact absurd h (by simp)
  · dsimp only at h
    split at h
    · exact absurd h (by simp)
    · rename_i oldest popped hqueue
      have h' := Option.some.inj h
      have hr := congrArg Prod.fst h'
      have ht := congrArg Prod.snd h'
      dsimp only at hr ht
      subst hr
      subst ht
      exact ⟨rfl, by rw [hqueue]; simp, by rw [hqueue]; rfl⟩

/-- After any defined sequence of tabu steps the queue is the old queue followed by the
traits of the returned solutions, without as many leading entries as steps were made. -/
lemma select_results_TS_queue {Encoding Inf Trait R : Type} [LinearOrder R]
    [DecidableEq Trait] [Inhabited Trait] (inst : Trajectory.Instance Encoding Inf R)
    (inputs : List (Solution Encoding R × List (Solution Encoding R)))
    (ts ts' : TS Encoding Inf Trait) (results : List (Solution Encoding R))
    (h : select_results TS_strategy inst inputs ts = some (results, ts')) :
    ts'.trait = ts.trait ∧ results.length = inputs.length ∧
      ts'.queue = (ts.queue ++ results.map (fun s => ts.trait s.encoding inst.inf)).drop
        results.length := by
  induction inputs generalizing ts results with
  | nil =>
    simp only [select_results] at h
    have h' := Option.some.inj h
    have hr : [] = results := congrArg Prod.fst h'
    have ht : ts = ts' := congrArg Prod.snd h'
    subst hr
    subst ht
    simp
  | cons input rest ih =>
    obtain ⟨current, neighbors⟩ := input
    simp only [select_results] at h
    split at h
    · exact absurd h (by simp)
    · rename_i r ts1 hsel
      split at h
      · exact absurd h (by simp)
      · rename_i rs ts2 hrest
        have h' := Option.some.inj h
        have hr : r :: rs = results := congrArg Prod.fst h'
        have ht : ts2 = ts' := congrArg Prod.snd h'
        subst hr
        subst ht
        have hsel' : select_with_TS inst current neighbors ts = some (r, ts1) := hsel
        obtain ⟨htrait1, hne, hq1⟩ := select_with_TS_queue inst current neighbors ts ts1 r hsel'
        obtain ⟨htrait2, hlen, hq2⟩ := ih ts1 rs hrest
        refine ⟨htrait2.trans htrait1, by simp [hlen], ?_⟩
        rw [hq2, hq1, htrait1]
        cases hqueue : ts.queue with
        | nil => exact absurd hqueue hne
        | cons oldest popped => simp

/-- Tabu steps over non-empty neighbor lists, from a non-empty queue, are all defined. -/
lemma select_results_TS_defined {Encoding Inf Trait R : Type} [LinearOrder R]
    [DecidableEq Trait] [Inhabited Trait] (inst : Trajectory.Instance Encoding Inf R)
    (inputs : List (Solution Encoding R × List (Solution Encoding R)))
    (hin : ∀ input ∈ inputs, input.2 ≠ []) (ts : TS Encoding Inf Trait)
    (hq : 1 ≤ ts.queue.length) :
    ∃ results ts', select_results TS_strategy inst inputs ts = some (results, ts') := by
  induction inputs generalizing ts with
  | nil => exact ⟨[], ts, rfl⟩
  | cons input rest ih =>
    obtain ⟨current, neighbors⟩ := input
    obtain ⟨result, ts1, hsel, hlen⟩ := select_with_TS_length inst current neighbors ts
      (hin (current, neighbors) (List.mem_cons_self _ _)) hq
    obtain ⟨results, ts', hrest⟩ :=
      ih (fun input hmem => hin input (List.mem_cons_of_mem _ hmem)) ts1 (hlen ▸ hq)
    have hsel' : (TS_strategy (R := R)).select inst current neighbors ts
        = some (result, ts1) := hsel
    exact ⟨result :: results, ts', by simp only [select_results, hsel', hrest]⟩

/-- C22: for `length = L ≥ 1`, `initialize` fills the queue with `L` copies of the trait of
the initial encoding; steps over non-empty neighbor lists are all defined; and after any
defined steps that returned `s_1 .. s_k` the queue, oldest first, is the sequence of `L`
copies of that trait followed by the traits of `s_1 .. s_k` without its first `k` entries,
that is its last `L` entries. Hence the trait pushed by step `i + 1` is at position
`L + i - k` of the queue as long as `k ≤ i + L`, and is outside the window afterwards. -/
theorem TS_queue_is_fifo_window {Encoding Inf Trait R : Type} [LinearOrder R]
    [DecidableEq Trait] [Inhabited Trait] (inst : Trajectory.Instance Encoding Inf R)
    (ts : TS Encoding Inf Trait) (e0 : Encoding) (hL : 1 ≤ ts.length) :
    ∃ ts0, initialize_TS inst ts e0 = some ts0 ∧
      ts0.queue = List.replicate ts.length.toNat (ts.trait e0 inst.inf) ∧
      ∀ inputs : List (Solution Encoding R × List (Solution Encoding R)),
        ((∀ input ∈ inputs, input.2 ≠ []) →
          ∃ results ts', select_results TS_strategy inst inputs ts0 = some (results, ts')) ∧
        ∀ results ts', select_results TS_strategy inst inputs ts0 = some (results, ts') →
          results.length = inputs.length ∧
          ts'.queue
            = (List.replicate ts.length.toNat (ts.trait e0 inst.inf) ++
                results.map (fun s => ts.trait s.encoding inst.inf)).drop results.length ∧
          ts'.queue
            = (List.replicate ts.length.toNat (ts.trait e0 inst.inf) ++
                results.map (fun s => ts.trait s.encoding inst.inf)).drop
              ((List.replicate ts.length.toNat (ts.trait e0 inst.inf) ++
                results.map (fun s => ts.trait s.encoding inst.inf)).length
                - ts.length.toNat) ∧
          ts'.queue.length = ts.length.toNat ∧
          ∀ i s, results.get? i = some s → results.length ≤ i + ts.length.toNat →
            ts'.queue.get? (ts.length.toNat + i - results.length)
              = some (ts.trait s.encoding inst.inf) := by
  refine ⟨_, initialize_TS_queue inst ts e0 (by omega), rfl, ?_⟩
  intro inputs
  constructor
  · intro hin
    exact select_results_TS_defined inst inputs hin _ (by simp; omega)
  · intro results ts' h
    obtain ⟨_, hlen, hq⟩ := select_results_TS_queue inst inputs _ ts' results h
    dsimp only at hq
    refine ⟨hlen, hq, ?_, ?_, ?_⟩
    · rw [hq]
      congr 1
      simp
    · rw [hq]
      simp
    · intro i s hs hk
      have hi : i < results.length := by
        by_contra hcon
        rw [List.get?_eq_none.mpr (not_lt.mp hcon)] at hs
        exact absurd hs (by simp)
      rw [hq, List.get?_eq_getElem?, List.getElem?_drop]
      have hidx : results.length + (ts.length.toNat + i - results.length)
          = ts.length.toNat + i := by omega
      rw [hidx, List.getElem?_append_right (by simp)]
      simp only [List.length_replicate, Nat.add_sub_cancel_left, List.getElem?_map]
      rw [List.get?_eq_getElem?] at hs
      rw [hs]
      rfl

/-- Witness of C22: with `length = 2` from encoding 3 (trait 3), two steps over the
neighbor lists (2, 4) and (1, 3) return 2 and 1, and the queue is then the last two
entries of 3, 3, 2, 1. -/
theorem TS_queue_is_fifo_window_witness :
    (1 : Int) ≤ 2 ∧
      ∃ ts0, initialize_TS (square_instance 2) (⟨2, fun e _ => e, []⟩ : TS Int Unit Int) 3
          = some ts0 ∧
        (select_results TS_strategy (square_instance 2)
          [(⟨3, 9⟩, [⟨2, 4⟩, ⟨4, 16⟩]), (⟨2, 4⟩, [⟨1, 1⟩, ⟨3, 9⟩])]
          (⟨2, fun e _ => e, [3, 3]⟩ : TS Int Unit Int)).map
            (fun r => (r.1, r.2.queue)) = some ([⟨2, 4⟩, ⟨1, 1⟩], [2, 1]) ∧
        ts0.queue = List.replicate 2 3 := by
  obtain ⟨ts0, hinit, hqueue, _⟩ := TS_queue_is_fifo_window (square_instance 2)
    (⟨2, fun e _ => e, []⟩ : TS Int Unit Int) 3 (by decide)
  exact ⟨by decide, ts0, hinit, by decide, hqueue⟩

/-! Rejection sampling without enough distinct encodings -/

/-- A vector accepted by a rejection loop is the encoding of an individual, and the draws
left are among the draws given. -/
lemma DE_draw_ok_mem {R : Type} [DecidableEq R] (select_pool : List (List R))
    (population : List (Solution (List R) R)) (draws : List Nat) (x : List R)
    (rest : List Nat) (h : DE_draw select_pool population draws = .ok (x, rest)) :
    (∃ p ∈ population, p.encoding = x) ∧ ∀ i ∈ rest, i ∈ draws := by
  induction draws with
  | nil => exact absurd h (by simp [DE_draw])
  | cons rand_idx more ih =>
    unfold DE_draw at h
    split at h
    · exact absurd h (by simp)
    · rename_i individual hget
      split at h
      · exact absurd h (by simp)
      · obtain ⟨hp, hsub⟩ := ih h
        exact ⟨hp, fun i hi => List.mem_cons_of_mem _ (hsub i hi)⟩
      · injection h with h
        have hx : individual.encoding = x := congrArg Prod.fst h
        have hr : more = rest := congrArg Prod.snd h
        subst hr
        exact ⟨⟨individual, List.get?_mem hget, hx⟩, fun i hi => List.mem_cons_of_mem _ hi⟩

/-- Every vector in the select pool after the loop of `DE_mutation` was in it before or is
the encoding of an individual, and the draws left are among the draws given. -/
lemma DE_mutation_loop_mem {R : Type} [DecidableEq R] [Ring R]
    (population : List (Solution (List R) R)) (diff_vecs : Nat)
    (select_pool : List (List R)) (mutant_vec : List R) (draws : List Nat)
    (mutant_vec' : List R) (select_pool' : List (List R)) (draws' : List Nat)
    (h : DE_mutation_loop population diff_vecs select_pool mutant_vec draws
      = .ok (mutant_vec', select_pool', draws')) :
    (∀ x ∈ select_pool', x ∈ select_pool ∨ ∃ p ∈ population, p.encoding = x) ∧
      ∀ i ∈ draws', i ∈ draws := by
  induction diff_vecs generalizing select_pool mutant_vec draws with
  | zero =>
    simp only [DE_mutation_loop] at h
    injection h with h
    have hp : select_pool = select_pool' := congrArg (fun t => t.2.1) h
    have hd : draws = draws' := congrArg (fun t => t.2.2) h
    subst hp
    subst hd
    exact ⟨fun x hx => Or.inl hx, fun i hi => hi⟩
  | succ n ih =>
    unfold DE_mutation_loop at h
    split at h
    · exact absurd h (by simp)
    · rename_i sol1 draws1 hd1
      dsimp only at h
      split at h
      · exact absurd h (by simp)
      · rename_i sol2 draws2 hd2
        split at h
        · exact absurd h (by simp)
        · split at h
          · exact absurd h (by simp)
          · obtain ⟨hmem, hsub⟩ := ih _ _ _ h
            obtain ⟨hp1, hs1⟩ := DE_draw_ok_mem _ _ _ _ _ hd1
            obtain ⟨hp2, hs2⟩ := DE_draw_ok_mem _ _ _ _ _ hd2
            refine ⟨?_, fun i hi => hs1 i (hs2 i (hsub i hi))⟩
            intro x hx
            rcases hmem x hx with hpool | hpop
            · rcases List.mem_append.mp hpool with hpool | hx2
              · rcases List.mem_append.mp hpool with hpool | hx1
                · exact Or.inl hpool
                · have he : x = sol1 := by simpa using hx1
                  exact Or.inr (he ▸ hp1)
              · have he : x = sol2 := by simpa using hx2
                exact Or.inr (he ▸ hp2)
            · exact Or.inr hpop

/-- What a completed call of `DE_mate` has found: `2 * num_of_diff_vectors` pairwise
different encodings of individuals, none equal to the target or to the base, the base
being the encoding of the first individual. -/
lemma DE_mate_ok_added {R : Type} [DecidableEq R] [Ring R] (target_vec : List R)
    (population : List (Solution (List R) R)) (de : DifferentialEvolution R)
    (draws : List Nat) (r : List R × List Nat)
    (h : DE_mate target_vec population de draws = .ok r) :
    ∃ (base : Solution (List R) R) (added : List (List R)),
      population.get? 0 = some base ∧
      added.length = 2 * de.num_of_diff_vectors ∧ added.Nodup ∧
      (∀ x ∈ added, x ≠ target_vec ∧ x ≠ base.encoding ∧
        ∃ p ∈ population, p.encoding = x) ∧
      ∀ i ∈ r.2, i ∈ draws := by
  unfold DE_mate at h
  dsimp only at h
  split at h
  · exact absurd h (by simp)
  · rename_i base_vec pool0 hsel
    split at h
    · exact absurd h (by simp)
    · rename_i offset pool1 draws1 hmut
      split at h
      · exact absurd h (by simp)
      · injection h with h
        have hdr : draws1 = r.2 := congrArg Prod.snd h
        unfold DE_mate_select at hsel
        split at hsel
        · exact absurd hsel (by simp)
        · rename_i best hbest
          injection hsel with hsel
          have hp0 : [target_vec] ++ [best.encoding] = pool0 := congrArg Prod.snd hsel
          subst hp0
          have hget : population.get? 0 = some best := by
            simpa [deref, std_min] using hbest
          unfold DE_mutation at hmut
          split at hmut
          · exact absurd hmut (by simp)
          · dsimp only at hmut
            split at hmut
            · exact absurd hmut (by simp)
            · rename_i m pool2 draws2 hloop
              injection hmut with hmut
              have hd2 : draws2 = draws1 := congrArg (fun t => t.2.2) hmut
              obtain ⟨pairs, hlen, hpool, hnodup, hfresh, _, _, _⟩ :=
                DE_mutation_loop_spec population _ _ _ draws m pool2 draws2 hloop
              obtain ⟨hmem, hsub⟩ :=
                DE_mutation_loop_mem population _ _ _ draws m pool2 draws2 hloop
              refine ⟨best, accepted_vectors pairs, hget,
                by rw [accepted_vectors_length, hlen], hnodup, ?_, ?_⟩
              · intro x hx
                have hnot := hfresh x hx
                refine ⟨fun he => hnot (by simp [he]), fun he => hnot (by simp [he]), ?_⟩
                rcases hmem x (by rw [hpool]; exact List.mem_append_right _ hx) with hp | hp
                · exact absurd hp hnot
                · exact hp
              · intro i hi
                rw [← hdr, ← hd2] at hi
                exact hsub i hi

/-- A list without duplicates whose members all occur in `l` is no longer than `l` without
its duplicates. -/
lemma length_le_dedup_of_nodup {α : Type} [DecidableEq α] (sub l : List α)
    (hnodup : sub.Nodup) (hmem : ∀ x ∈ sub, x ∈ l) : sub.length ≤ l.dedup.length :=
  (List.subperm_of_subset hnodup (fun x hx => List.mem_dedup.mpr (hmem x hx))).length_le

/-- One index of `generate` leaves every encoding as it was and hands on draws that are
among those given. -/
lemma generate_at_encodings {Inf R : Type} [LinearOrderedRing R]
    (inst : Evolutionary.Instance (List R) Inf R) (de : DifferentialEvolution R) (i : Nat)
    (population : List (Solution (List R) R)) (draws : List Nat)
    (population' : List (Solution (List R) R)) (draws' : List Nat)
    (h : generate_at inst de i population draws = .ok (population', draws')) :
    population'.map (fun p => p.encoding) = population.map (fun p => p.encoding) ∧
      (∀ k ∈ draws', k ∈ draws) ∧
      ∃ individual r, population.get? i = some individual ∧
        DE_mate individual.encoding population de draws = .ok r := by
  unfold generate_at at h
  split at h
  · exact absurd h (by simp)
  · rename_i individual hget
    dsimp only at h
    split at h
    · exact absurd h (by simp)
    · rename_i trial_vec draws1 hmate
      have htrial := DE_mate_ok _ _ _ _ _ _ hmate
      obtain ⟨_, _, _, _, _, _, hsub⟩ := DE_mate_ok_added _ _ _ _ _ hmate
      dsimp only at hsub
      subst htrial
      split at h
      · injection h with h
        have hp : population.set i ⟨individual.encoding,
            inst.evaluate individual.encoding inst.inf⟩ = population' := congrArg Prod.fst h
        have hd : draws1 = draws' := congrArg Prod.snd h
        subst hp
        subst hd
        refine ⟨?_, hsub, individual, _, hget, hmate⟩
        apply List.ext_getElem?
        intro k
        rw [List.get?_eq_getElem?] at hget
        have hi : i < population.length := by
          by_contra hcon
          rw [List.getElem?_eq_none (not_lt.mp hcon)] at hget
          exact absurd hget (by simp)
        have hind : population[i] = individual := by
          rw [List.getElem?_eq_getElem hi] at hget
          exact Option.some.inj hget
        by_cases hk : i = k
        · subst hk
          simp [List.getElem?_set, hi, hind]
        · simp [List.getElem?_set, hk]
      · injection h with h
        have hp : population = population' := congrArg Prod.fst h
        have hd : draws1 = draws' := congrArg Prod.snd h
        subst hp
        subst hd
        exact ⟨rfl, hsub, individual, _, hget, hmate⟩

/-- A completed loop of `generate` has completed a call of `DE_mate` for every index it
covers, on a population with the encodings of the one it started from. -/
lemma generate_loop_mates {Inf R : Type} [LinearOrderedRing R]
    (inst : Evolutionary.Instance (List R) Inf R) (de : DifferentialEvolution R)
    (remaining i : Nat) (population : List (Solution (List R) R)) (draws : List Nat)
    (result : List (Solution (List R) R) × List Nat)
    (h : generate_loop inst de remaining i population draws = .ok result) (k : Nat)
    (hik : i ≤ k) (hk : k < i + remaining) :
    ∃ population_k draws_k individual r,
      population_k.map (fun p => p.encoding) = population.map (fun p => p.encoding) ∧
      population_k.get? k = some individual ∧
      DE_mate individual.encoding population_k de draws_k = .ok r := by
  induction remaining generalizing i population draws with
  | zero => omega
  | succ remaining ih =>
    simp only [generate_loop] at h
    split at h
    · exact absurd h (by simp)
    · rename_i pop1 draws1 hat
      obtain ⟨henc, _, individual, r, hget, hmate⟩ :=
        generate_at_encodings inst de i population draws pop1 draws1 hat
      rcases Nat.eq_or_lt_of_le hik with heq | hlt
      · subst heq
        exact ⟨population, draws, individual, r, rfl, hget, hmate⟩
      · obtain ⟨pk, dk, ind, rk, hpk, hgk, hmk⟩ := ih (i + 1) pop1 draws1 h hlt (by omega)
        exact ⟨pk, dk, ind, rk, hpk.trans henc, hgk, hmk⟩

/-- With a non-empty population of fewer than `2 * num_of_diff_vectors + 2` distinct
encodings and at least one difference pair, no call of `generate` completes. -/
lemma generate_never_completes {Inf R : Type} [LinearOrderedRing R]
    (inst : Evolutionary.Instance (List R) Inf R) (population : List (Solution (List R) R))
    (de : DifferentialEvolution R) (hne : population ≠ [])
    (hn : 1 ≤ de.num_of_diff_vectors)
    (hD : ((population.map (fun p => p.encoding)).dedup).length
      < 2 * de.num_of_diff_vectors + 2)
    (draws : List Nat) (result : List (Solution (List R) R) × List Nat) :
    generate inst population de draws ≠ .ok result := by
  intro h
  have hmates := generate_loop_mates inst de population.length 0 population draws result h
  obtain ⟨first, hfirst⟩ : ∃ first, population.get? 0 = some first := by
    cases population with
    | nil => exact absurd rfl hne
    | cons b tl => exact ⟨b, rfl⟩
  have key : ∀ k individual, population.get? k = some individual →
      ∃ added : List (List R), added.length = 2 * de.num_of_diff_vectors ∧ added.Nodup ∧
        ∀ x ∈ added, x ≠ individual.encoding ∧ x ≠ first.encoding ∧
          x ∈ population.map (fun p => p.encoding) := by
    intro k individual hget
    have hk : k < population.length := by
      by_contra hcon
      rw [List.get?_eq_none.mpr (not_lt.mp hcon)] at hget
      exact absurd hget (by simp)
    obtain ⟨pk, dk, ind, rk, hpk, hgk, hmk⟩ := hmates k (Nat.zero_le _) (by omega)
    obtain ⟨base, added, hbase, hlen, hnodup, hadded, _⟩ := DE_mate_ok_added _ _ _ _ _ hmk
    have hind : ind.encoding = individual.encoding := by
      have h1 := congrArg (fun l => l.get? k) hpk
      simp only [List.get?_eq_getElem?, List.getElem?_map] at h1 hgk hget
      rw [hgk, hget] at h1
      exact Option.some.inj h1
    have hb : base.encoding = first.encoding := by
      have h1 := congrArg (fun l => l.get? 0) hpk
      simp only [List.get?_eq_getElem?, List.getElem?_map] at h1 hbase hfirst
      rw [hbase, hfirst] at h1
      exact Option.some.inj h1
    refine ⟨added, hlen, hnodup, ?_⟩
    intro x hx
    obtain ⟨h1, h2, p, hp, hpx⟩ := hadded x hx
    refine ⟨hind ▸ h1, hb ▸ h2, ?_⟩
    rw [← hpk]
    exact List.mem_map.mpr ⟨p, hp, hpx⟩
  by_cases hall : ∀ p ∈ population, p.encoding = first.encoding
  · obtain ⟨added, hlen, _, hadded⟩ := key 0 first hfirst
    cases added with
    | nil =>
      simp only [List.length_nil] at hlen
      omega
    | cons x rest =>
      obtain ⟨_, hx, hmem⟩ := hadded x (List.mem_cons_self _ _)
      obtain ⟨p, hp, hpx⟩ := List.mem_map.mp hmem
      exact hx (hpx ▸ hall p hp)
  · simp only [not_forall] at hall
    obtain ⟨p, hp, hpne⟩ := hall
    obtain ⟨k, hk⟩ := List.get?_of_mem hp
    obtain ⟨added, hlen, hnodup, hadded⟩ := key k p hk
    have hL : (p.encoding :: first.encoding :: added).Nodup := by
      simp only [List.nodup_cons, List.mem_cons, not_or]
      exact ⟨⟨hpne, fun hm => (hadded _ hm).1 rfl⟩, fun hm => (hadded _ hm).2.1 rfl, hnodup⟩
    have hcount := length_le_dedup_of_nodup _ (population.map (fun p => p.encoding)) hL
      (by
        intro x hx
        rcases List.mem_cons.mp hx with hx | hx
        · exact hx ▸ List.mem_map.mpr ⟨p, hp, rfl⟩
        · rcases List.mem_cons.mp hx with hx | hx
          · exact hx ▸ List.mem_map.mpr ⟨first, List.get?_mem hfirst, rfl⟩
          · exact (hadded x hx).2.2)
    simp only [List.length_cons, hlen] at hcount
    omega

/-- With encodings of one dimension and draws within the population, a rejection loop can
fail only by outliving the draws. -/
lemma DE_draw_fault {R : Type} [DecidableEq R] (d : Nat) (select_pool : List (List R))
    (population : List (Solution (List R) R)) (draws : List Nat)
    (hpool : ∀ q ∈ select_pool, q.length = d)
    (hpop : ∀ p ∈ population, p.encoding.length = d)
    (hidx : ∀ i ∈ draws, i < population.length) (e : Fault)
    (h : DE_draw select_pool population draws = .error e) : e = Fault.starved := by
  induction draws with
  | nil =>
    simp only [DE_draw] at h
    injection h with h
    exact h.symm
  | cons rand_idx more ih =>
    have hi := hidx rand_idx (List.mem_cons_self _ _)
    obtain ⟨individual, hget⟩ : ∃ p, population.get? rand_idx = some p :=
      ⟨_, List.get?_eq_get hi⟩
    have hfind := std_find_if_of_length_eq individual.encoding select_pool
      (fun q hq => (hpool q hq).trans (hpop individual (List.get?_mem hget)).symm)
    unfold DE_draw at h
    rw [hget] at h
    dsimp only at h
    rw [hfind] at h
    by_cases hmem : individual.encoding ∈ select_pool
    · simp only [hmem, decide_True] at h
      exact ih (fun i hi => hidx i (List.mem_cons_of_mem _ hi)) h
    · simp only [hmem, decide_False] at h
      exact absurd h (by simp)

/-- Under the same conditions the loop of `DE_mutation` can fail only by outliving the
draws. -/
lemma DE_mutation_loop_fault {R : Type} [DecidableEq R] [Ring R] (d : Nat)
    (population : List (Solution (List R) R))
    (hpop : ∀ p ∈ population, p.encoding.length = d) (diff_vecs : Nat)
    (select_pool : List (List R)) (mutant_vec : List R) (draws : List Nat)
    (hpool : ∀ q ∈ select_pool, q.length = d) (hm : mutant_vec.length = d)
    (hidx : ∀ i ∈ draws, i < population.length) (e : Fault)
    (h : DE_mutation_loop population diff_vecs select_pool mutant_vec draws = .error e) :
    e = Fault.starved := by
  induction diff_vecs generalizing select_pool mutant_vec draws with
  | zero => exact absurd h (by simp [DE_mutation_loop])
  | succ n ih =>
    unfold DE_mutation_loop at h
    split at h
    · rename_i e1 hd1
      injection h with h
      exact h ▸ DE_draw_fault d _ _ _ hpool hpop hidx e1 hd1
    · rename_i sol1 draws1 hd1
      obtain ⟨⟨p1, hp1, he1⟩, hs1⟩ := DE_draw_ok_mem _ _ _ _ _ hd1
      have hl1 : sol1.length = d := he1 ▸ hpop p1 hp1
      have hidx1 : ∀ i ∈ draws1, i < population.length := fun i hi => hidx i (hs1 i hi)
      have hpool1 : ∀ q ∈ select_pool ++ [sol1], q.length = d := by
        intro q hq
        rcases List.mem_append.mp hq with hq | hq
        · exact hpool q hq
        · have he : q = sol1 := by simpa using hq
          rw [he, hl1]
      dsimp only at h
      split at h
      · rename_i e2 hd2
        injection h with h
        exact h ▸ DE_draw_fault d _ _ _ hpool1 hpop hidx1 e2 hd2
      · rename_i sol2 draws2 hd2
        obtain ⟨⟨p2, hp2, he2⟩, hs2⟩ := DE_draw_ok_mem _ _ _ _ _ hd2
        have hl2 : sol2.length = d := he2 ▸ hpop p2 hp2
        have hidx2 : ∀ i ∈ draws2, i < population.length := fun i hi => hidx1 i (hs2 i hi)
        split at h
        · rename_i e3 hsub
          have : valarray_sub sol2 sol1
              = .ok (List.zipWith (fun x y => x - y) sol2 sol1) := by
            simp [valarray_sub, hl1, hl2]
          rw [this] at hsub
          exact absurd hsub (by simp)
        · rename_i diff hsub
          obtain ⟨_, hdiff⟩ := valarray_sub_ok _ _ _ hsub
          have hdl : diff.length = d := by
            rw [hdiff, List.length_zipWith, hl1, hl2, Nat.min_self]
          split at h
          · rename_i e4 hadd
            have : valarray_add mutant_vec diff
                = .ok (List.zipWith (fun x y => x + y) mutant_vec diff) := by
              simp [valarray_add, hm, hdl]
            rw [this] at hadd
            exact absurd hadd (by simp)
          · rename_i m1 hadd
            obtain ⟨_, hm1⟩ := valarray_add_ok _ _ _ hadd
            refine ih _ _ _ ?_ ?_ hidx2 h
            · intro q hq
              rcases List.mem_append.mp hq with hq | hq
              · exact hpool1 q hq
              · have he : q = sol2 := by simpa using hq
                rw [he, hl2]
            · rw [hm1, List.length_zipWith, hm, hdl, Nat.min_self]

/-- Under the same conditions `DE_mate` can fail only by outliving the draws. -/
lemma DE_mate_fault {R : Type} [DecidableEq R] [Ring R] (d : Nat)
    (target_vec : List R) (population : List (Solution (List R) R))
    (de : DifferentialEvolution R) (draws : List Nat) (hne : population ≠ [])
    (ht : target_vec.length = d) (hpop : ∀ p ∈ population, p.encoding.length = d)
    (hidx : ∀ i ∈ draws, i < population.length) (e : Fault)
    (h : DE_mate target_vec population de draws = .error e) : e = Fault.starved := by
  obtain ⟨first, tl, hcons⟩ : ∃ first tl, population = first :: tl := by
    cases population with
    | nil => exact absurd rfl hne
    | cons b tl => exact ⟨b, tl, rfl⟩
  have hsel : DE_mate_select [target_vec] population
      = .ok (first.encoding, [target_vec, first.encoding]) := by
    simp [DE_mate_select, deref, std_min, hcons]
  have hfl : first.encoding.length = d := hpop first (by simp [hcons])
  have hpool : ∀ q ∈ [target_vec, first.encoding], q.length = d := by
    intro q hq
    rcases List.mem_cons.mp hq with hq | hq
    · rw [hq, ht]
    · have he : q = first.encoding := by simpa using hq
      rw [he, hfl]
  unfold DE_mate at h
  dsimp only at h
  rw [hsel] at h
  dsimp only at h
  unfold DE_mutation at h
  simp only [List.head?_cons] at h
  split at h
  · rename_i e1 hmut
    split at hmut
    · rename_i e2 hloop
      injection hmut with hmut
      injection h with h
      exact h ▸ hmut ▸ DE_mutation_loop_fault d population hpop _ _ _ draws hpool (by simp [ht])
        hidx e2 hloop
    · exact absurd hmut (by simp)
  · rename_i offset pool1 draws1 hmut
    split at hmut
    · exact absurd hmut (by simp)
    · rename_i m pool2 draws2 hloop
      injection hmut with hmut
      have ho : valarray_scale de.scaling_factor m = offset := congrArg Prod.fst hmut
      obtain ⟨_, _, _, _, _, _, hml, _⟩ :=
        DE_mutation_loop_spec population _ _ _ draws m pool2 draws2 hloop
      have hol : offset.length = d := by
        rw [← ho]
        simp [valarray_scale, hml, ht]
      have hadd : valarray_add first.encoding offset
          = .ok (List.zipWith (fun x y => x + y) first.encoding offset) := by
        simp [valarray_add, hfl, hol]
      rw [hadd] at h
      exact absurd h (by simp)

/-- Under the same conditions the loop of `generate` can fail only by outliving the
draws. -/
lemma generate_loop_fault {Inf R : Type} [LinearOrderedRing R] (d : Nat)
    (inst : Evolutionary.Instance (List R) Inf R) (de : DifferentialEvolution R)
    (remaining i : Nat) (population : List (Solution (List R) R)) (draws : List Nat)
    (hrange : i + remaining ≤ population.length)
    (hpop : ∀ p ∈ population, p.encoding.length = d)
    (hidx : ∀ k ∈ draws, k < population.length) (e : Fault)
    (h : generate_loop inst de remaining i population draws = .error e) :
    e = Fault.starved := by
  induction remaining generalizing i population draws with
  | zero => exact absurd h (by simp [generate_loop])
  | succ remaining ih =>
    have hi : i < population.length := by omega
    have hne : population ≠ [] := by
      intro hnil
      rw [hnil] at hi
      exact absurd hi (by simp)
    obtain ⟨individual, hget⟩ : ∃ p, population.get? i = some p :=
      ⟨_, List.get?_eq_get hi⟩
    simp only [generate_loop] at h
    split at h
    · rename_i e1 hat
      injection h with h
      rw [← h]
      unfold generate_at at hat
      rw [hget] at hat
      dsimp only at hat
      split at hat
      · rename_i e2 hmate
        injection hat with hat
        exact hat ▸ DE_mate_fault d _ population de draws hne
          (hpop individual (List.get?_mem hget)) hpop hidx e2 hmate
      · split at hat
        · exact absurd hat (by simp)
        · exact absurd hat (by simp)
    · rename_i pop1 draws1 hat
      obtain ⟨henc, hsub, _⟩ := generate_at_encodings inst de i population draws pop1 draws1 hat
      have hlen : pop1.length = population.length := by
        have := congrArg List.length henc
        simpa using this
      refine ih (i + 1) pop1 draws1 (by omega) ?_ ?_ h
      · intro p hp
        have hmem : p.encoding ∈ pop1.map (fun p => p.encoding) :=
          List.mem_map.mpr ⟨p, hp, rfl⟩
        rw [henc] at hmem
        obtain ⟨q, hq, hqe⟩ := List.mem_map.mp hmem
        rw [← hqe]
        exact hpop q hq
      · intro k hk
        rw [hlen]
        exact hidx k (hsub k hk)

/-- C21: for a non-empty population with fewer than `2 * num_of_diff_vectors + 2` distinct
encodings and `num_of_diff_vectors ≥ 1`, no finite supply of random draws lets `generate`
complete; and when the encodings have one dimension and the draws are indices of the
population, the call is still inside a rejection loop of `DE_mutation` when the draws end,
however many there are. -/
theorem generate_starves_without_diversity {Inf R : Type} [LinearOrderedRing R]
    (inst : Evolutionary.Instance (List R) Inf R) (population : List (Solution (List R) R))
    (de : DifferentialEvolution R) (hne : population ≠ [])
    (hn : 1 ≤ de.num_of_diff_vectors)
    (hD : ((population.map (fun p => p.encoding)).dedup).length
      < 2 * de.num_of_diff_vectors + 2) :
    (∀ draws result, generate inst population de draws ≠ .ok result) ∧
      (∀ d, (∀ p ∈ population, p.encoding.length = d) →
        ∀ draws, (∀ i ∈ draws, i < population.length) →
          generate inst population de draws = .error Fault.starved) := by
  refine ⟨fun draws result => generate_never_completes inst population de hne hn hD draws
    result, ?_⟩
  intro d hpop draws hidx
  cases hgen : generate inst population de draws with
  | ok result =>
    exact absurd hgen (generate_never_completes inst population de hne hn hD draws result)
  | error e =>
    rw [generate_loop_fault d inst de population.length 0 population draws (by omega) hpop
      hidx e hgen]

/-- Witness of C21: the population (2), (1), (3) has three distinct encodings, fewer than
`2 * 1 + 2`; with one difference pair the first individual finds its pair on the draws 1
and 2, the second one never finds a second vector, and `generate` is still sampling when
the draws end. -/
theorem generate_starves_without_diversity_witness :
    ([(⟨[2], 2⟩ : Solution (List Int) Int), ⟨[1], 1⟩, ⟨[3], 3⟩] ≠ []) ∧
      ((([(⟨[2], 2⟩ : Solution (List Int) Int), ⟨[1], 1⟩, ⟨[3], 3⟩].map
        (fun p => p.encoding)).dedup).length < 2 * 1 + 2) ∧
      generate (sum_instance 1) [⟨[2], 2⟩, ⟨[1], 1⟩, ⟨[3], 3⟩] ⟨0, 0, 1, 1⟩
        [1, 2, 2, 0, 1, 2, 0, 1, 2, 0] = .error Fault.starved :=
  ⟨by simp, by decide,
    (generate_starves_without_diversity (sum_instance 1)
      [⟨[2], 2⟩, ⟨[1], 1⟩, ⟨[3], 3⟩] ⟨0, 0, 1, 1⟩ (by simp) (by decide) (by decide)).2 1
      (by decide) [1, 2, 2, 0, 1, 2, 0, 1, 2, 0] (by decide)⟩

end MH
